import Mathlib

/-!
Verification of the HackerNews incremental crawler
(`src/data_analysis/extract.py`, class `Extracter`, with the ledger helpers
shared with `src/data_analysis/fetcher.py`).

The Python source is shallowly embedded: the HTTP source is a finite corpus
(association lists for items and user profiles), a fetch outcome is either a
raised exception, a null/falsy payload, or a value, and the in-place list/set
mutation of the crawler is explicit state passing over `CrawlState`.  A ghost
`fetchLog` field records every id handed to `fetch_batch`, which the source
only observes through network traffic.
-/

namespace HackerNews

/-- Outcome of one fetch coroutine: a raised exception (captured by
`asyncio.gather(..., return_exceptions=True)`), a falsy payload (`None`, the
JSON null the HN API returns for missing/dead ids), or a truthy value. -/
inductive Fetch (α : Type) where
  | exn : Fetch α
  | null : Fetch α
  | val : α → Fetch α
  deriving Repr, DecidableEq

/-- The filter `r and not isinstance(r, Exception)` applied by `fetch_batch`
to one result: only truthy non-exception values survive. -/
def Fetch.toOption : Fetch α → Option α
  | .exn => none
  | .null => none
  | .val a => some a

/-- A HackerNews item payload as the crawler reads it: its `id`, its `type`
discriminator, its `by` author field (absent for deleted items) and its
`kids` child-id list.  Other JSON fields are never inspected by the core. -/
structure Item where
  id : Nat
  itemType : String
  author : Option String
  kids : List Nat
  deriving Repr, DecidableEq

/-- A user profile as the crawler reads it: only its `id` (the username)
matters to the core. -/
structure UserProf where
  id : String
  deriving Repr, DecidableEq

/-- An identifier as stored in the run's collections and the ledger: item ids
are integers, user ids are usernames.  The two spaces never collide. -/
inductive HNId where
  | item : Nat → HNId
  | user : String → HNId
  deriving Repr, DecidableEq

/-- Python truthiness of an id, as used by
`{item["id"] for item in new_items if item and item.get("id")}`:
the integer 0 and the empty string are falsy. -/
def HNId.truthy : HNId → Bool
  | .item i => i ≠ 0
  | .user s => s ≠ ""

/-- The external HN source: finite tables for `get_item` and `get_user`, and
the per-category story-id listings behind `get_all_stories`.  An id missing
from the table fetches as `null`, exactly as the live API answers for an
unknown id. -/
structure Corpus where
  itemEntries : List (Nat × Fetch Item)
  userEntries : List (String × Fetch UserProf)
  categoryStoryLists : List (String × List Nat)
  deriving Repr

/-- `Endpoints.get_item`: look the id up in the corpus. -/
def Corpus.getItem (env : Corpus) (itemId : Nat) : Fetch Item :=
  (env.itemEntries.lookup itemId).getD .null

/-- `Endpoints.get_user`: look the username up in the corpus. -/
def Corpus.getUser (env : Corpus) (username : String) : Fetch UserProf :=
  (env.userEntries.lookup username).getD .null

/-- `Endpoints.get_all_stories`: every category's listing truncated to
`stories_per_category` (`story_ids[:stories_per_category]`). -/
def Corpus.getAllStories (env : Corpus) (storiesPerCategory : Nat) :
    List (String × List Nat) :=
  env.categoryStoryLists.map (fun cl => (cl.1, cl.2.take storiesPerCategory))

/-- Constructor arguments of `Extracter` (its configuration surface). -/
structure Config where
  storiesPerCategory : Nat := 5
  maxCommentDepth : Nat := 3
  maxTopComments : Nat := 5
  maxChildComments : Nat := 3
  batchSize : Nat := 10
  deriving Repr, DecidableEq

/-- The batch partition produced by `for i in range(0, len(ids_or_names), bs)`
and `ids_or_names[i : i + bs]`: consecutive slices of length `bs` (the last
one possibly shorter).  The loop runs at most `len(ids_or_names)` iterations,
which the fuel argument of `chunksGo` makes explicit so that the recursion is
structural.  Python's `range` with step 0 raises, so the `bs = 0` case is
unreachable in the program; the embedding returns the degenerate single chunk
there and every theorem about batching assumes `0 < bs`. -/
def chunksGo (bs : Nat) : Nat → List α → List (List α)
  | _, [] => []
  | 0, x :: xs => [x :: xs]
  | fuel + 1, x :: xs =>
    if bs = 0 then [x :: xs]
    else (x :: xs).take bs :: chunksGo bs fuel ((x :: xs).drop bs)

/-- The slices `ids_or_names[i : i + bs]` for `i in range(0, len, bs)`. -/
def chunks (bs : Nat) (l : List α) : List (List α) :=
  chunksGo bs l.length l

/-- `Extracter.fetch_batch`: slice the ids into batches, run `fetch_func` on
each element, capture exceptions, and keep only truthy non-exception results
in order. -/
def fetch_batch (bs : Nat) (idsOrNames : List α) (fetchFunc : α → Fetch β) :
    List β :=
  ((chunks bs idsOrNames).map
    (fun batchData => (batchData.map fetchFunc).filterMap Fetch.toOption)).flatten

/-- Unfolding equation of `chunksGo` on the empty list. -/
theorem chunksGo_nil (bs fuel : Nat) : chunksGo bs fuel ([] : List α) = [] := by
  cases fuel <;> rfl

/-- Unfolding equation of `chunksGo` on a nonempty list with fuel left. -/
theorem chunksGo_succ_cons (bs f : Nat) (x : α) (xs : List α) (hb : ¬ bs = 0) :
    chunksGo bs (f + 1) (x :: xs) =
      (x :: xs).take bs :: chunksGo bs f ((x :: xs).drop bs) := by
  simp [chunksGo, hb]

/-- The fuel argument of `chunksGo` is irrelevant once it covers the length
of the list. -/
theorem chunksGo_congr (bs : Nat) (hbs : 0 < bs) :
    ∀ (f1 f2 : Nat) (l : List α), l.length ≤ f1 → l.length ≤ f2 →
      chunksGo bs f1 l = chunksGo bs f2 l := by
  intro f1
  induction f1 with
  | zero =>
    intro f2 l h1 h2
    have : l = [] := List.eq_nil_of_length_eq_zero (Nat.le_zero.mp h1)
    subst this
    rw [chunksGo_nil, chunksGo_nil]
  | succ f ih =>
    intro f2 l h1 h2
    cases l with
    | nil => rw [chunksGo_nil, chunksGo_nil]
    | cons x xs =>
      cases f2 with
      | zero => simp at h2
      | succ g =>
        have hb : ¬ bs = 0 := by omega
        rw [chunksGo_succ_cons bs f x xs hb, chunksGo_succ_cons bs g x xs hb]
        have hlen : ((x :: xs).drop bs).length ≤ f := by
          simp only [List.length_drop, List.length_cons]
          simp only [List.length_cons] at h1
          omega
        have hlen2 : ((x :: xs).drop bs).length ≤ g := by
          simp only [List.length_drop, List.length_cons]
          simp only [List.length_cons] at h2
          omega
        rw [ih g _ hlen hlen2]

theorem chunks_nil (bs : Nat) : chunks bs ([] : List α) = [] := rfl

theorem chunks_cons (bs : Nat) (x : α) (xs : List α) (h : 0 < bs) :
    chunks bs (x :: xs) = (x :: xs).take bs :: chunks bs ((x :: xs).drop bs) := by
  have hb : ¬ bs = 0 := by omega
  show chunksGo bs (xs.length + 1) (x :: xs) = _
  rw [chunksGo_succ_cons bs xs.length x xs hb]
  congr 1
  unfold chunks
  exact chunksGo_congr bs h xs.length ((x :: xs).drop bs).length _
    (by simp only [List.length_drop, List.length_cons]; omega) le_rfl

/-- Every chunk is a consecutive slice of length at most `bs`. -/
theorem chunks_length_le (bs : Nat) (l : List α) (hbs : 0 < bs) :
    ∀ c ∈ chunks bs l, c.length ≤ bs := by
  suffices h : ∀ (fuel : Nat) (l : List α), l.length ≤ fuel →
      ∀ c ∈ chunksGo bs fuel l, c.length ≤ bs from h l.length l le_rfl
  intro fuel
  induction fuel with
  | zero =>
    intro l hl
    have : l = [] := List.eq_nil_of_length_eq_zero (Nat.le_zero.mp hl)
    subst this
    rw [chunksGo_nil]
    simp
  | succ f ih =>
    intro l hl
    cases l with
    | nil => rw [chunksGo_nil]; simp
    | cons x xs =>
      have hb : ¬ bs = 0 := by omega
      rw [chunksGo_succ_cons bs f x xs hb]
      intro c hc
      rcases List.mem_cons.mp hc with rfl | hc
      · simp
      · refine ih _ ?_ c hc
        simp only [List.length_drop, List.length_cons]
        simp only [List.length_cons] at hl
        omega

/-- The chunks concatenate back to the input: the slicing is a partition. -/
theorem chunks_flatten (bs : Nat) (l : List α) (hbs : 0 < bs) :
    (chunks bs l).flatten = l := by
  suffices h : ∀ (fuel : Nat) (l : List α), l.length ≤ fuel →
      (chunksGo bs fuel l).flatten = l from h l.length l le_rfl
  intro fuel
  induction fuel with
  | zero =>
    intro l hl
    have : l = [] := List.eq_nil_of_length_eq_zero (Nat.le_zero.mp hl)
    subst this
    rw [chunksGo_nil]
    rfl
  | succ f ih =>
    intro l hl
    cases l with
    | nil => rw [chunksGo_nil]; rfl
    | cons x xs =>
      have hb : ¬ bs = 0 := by omega
      rw [chunksGo_succ_cons bs f x xs hb, List.flatten_cons]
      rw [ih _ (by
        simp only [List.length_drop, List.length_cons]
        simp only [List.length_cons] at hl
        omega)]
      exact List.take_append_drop bs (x :: xs)

theorem flatten_map_filterMap (h : α → Option β) (L : List (List α)) :
    (L.map (fun l => l.filterMap h)).flatten = L.flatten.filterMap h := by
  induction L with
  | nil => simp
  | cons l L ih =>
    simp only [List.map_cons, List.flatten_cons, List.filterMap_append, ih]

/-- `fetch_batch` flattened: it is exactly a `filterMap` of the fetch outcome
over the input ids, in input order.  In particular every per-item exception or
falsy result is silently dropped and every truthy result is kept. -/
theorem fetch_batch_eq_filterMap (bs : Nat) (ids : List α)
    (fetchFunc : α → Fetch β) (hbs : 0 < bs) :
    fetch_batch bs ids fetchFunc =
      ids.filterMap (fun i => (fetchFunc i).toOption) := by
  unfold fetch_batch
  have hcomp :
      (fun batchData : List α => (batchData.map fetchFunc).filterMap Fetch.toOption) =
        (fun batchData : List α =>
          batchData.filterMap (fun i => (fetchFunc i).toOption)) := by
    funext batchData
    rw [List.filterMap_map]
    rfl
  rw [hcomp, flatten_map_filterMap, chunks_flatten bs ids hbs]

/-- A story as appended to the `stories` list: the raw item updated with
`hn_category` and `hn_endpoint`. -/
structure TaggedStory where
  item : Item
  hnCategory : String
  hnEndpoint : String
  deriving Repr, DecidableEq

/-- A comment as appended to the `comments` list: the raw item updated with
`hn_category`, `hn_context` and `hn_depth`. -/
structure TaggedComment where
  item : Item
  hnCategory : String
  hnContext : String
  hnDepth : Nat
  deriving Repr, DecidableEq

/-- A user profile as appended to the `users` list: the raw profile updated
with `hn_context`. -/
structure TaggedUser where
  profile : UserProf
  hnContext : String
  deriving Repr, DecidableEq

/-- Python `set.add`: a no-op when the element is already present. -/
def addToSet [DecidableEq α] (s : List α) (a : α) : List α :=
  if a ∈ s then s else s ++ [a]

/-- The mutable state threaded through `get_hn_content_with_metadata` and
`get_comments_with_metadata`: the `stories`/`comments`/`users` output lists
and the `seen_items`/`seen_users` sets, all mutated in place by the source.
`fetchLog` is ghost instrumentation recording every id and username handed to
`fetch_batch`, in order. -/
structure CrawlState where
  stories : List TaggedStory := []
  comments : List TaggedComment := []
  users : List TaggedUser := []
  seenItems : List Nat := []
  seenUsers : List String := []
  fetchLog : List HNId := []
  deriving Repr, DecidableEq

/-- The `for comment in batch_comments` loop body of
`Extracter.get_comments_with_metadata`: keep only items of type `"comment"`,
tag them, append them, mark them seen, collect unseen truthy authors (adding
them to `seen_users` at collection time), and gather the first
`max_child_comments` child ids when `depth < max_comment_depth - 1`.
Returns the updated state, the `comment_authors` list, and the
`child_comment_ids` list. -/
def processCommentBatch (cfg : Config) (depth : Nat) (parentCategory : String) :
    List Item → CrawlState → CrawlState × List String × List Nat
  | [], st => (st, [], [])
  | comment :: rest, st =>
    if comment.itemType = "comment" then
      let tagged : TaggedComment :=
        { item := comment, hnCategory := parentCategory,
          hnContext := "comment_on_" ++ parentCategory ++ "_story",
          hnDepth := depth }
      let st1 : CrawlState :=
        { st with comments := st.comments ++ [tagged],
                  seenItems := addToSet st.seenItems comment.id }
      let authStep : CrawlState × List String :=
        match comment.author with
        | some a =>
          if a ≠ "" ∧ a ∉ st1.seenUsers then
            ({ st1 with seenUsers := addToSet st1.seenUsers a }, [a])
          else (st1, [])
        | none => (st1, [])
      let myChildIds : List Nat :=
        if comment.kids ≠ [] ∧ depth < cfg.maxCommentDepth - 1 then
          comment.kids.take cfg.maxChildComments
        else []
      let next := processCommentBatch cfg depth parentCategory rest authStep.1
      (next.1, authStep.2 ++ next.2.1, myChildIds ++ next.2.2)
    else
      processCommentBatch cfg depth parentCategory rest st

/-- The `for user in await self.fetch_batch(...)` loop appending fetched
profiles (all truthy, since `fetch_batch` already filtered) with an
`hn_context` tag. -/
def appendUsers (users : List UserProf) (context : String) (st : CrawlState) :
    CrawlState :=
  users.foldl
    (fun acc user =>
      { acc with users := acc.users ++ [{ profile := user, hnContext := context }] })
    st

/-- `Extracter.get_comments_with_metadata`: recursively fetch comments and
authors with batching and depth control.  Terminal when
`depth >= max_comment_depth` or the id list is empty; otherwise filters the
ids against `seen_items` and `processed_ids`, fetches the remainder in
batches, processes the batch, fetches the newly collected commenter profiles,
and recurses once on the combined child-id list at `depth + 1` when
`depth < max_comment_depth - 1`. -/
def get_comments_with_metadata (env : Corpus) (cfg : Config)
    (commentIds : List Nat) (st : CrawlState) (processedIds : List HNId)
    (depth : Nat) (parentCategory : String) : CrawlState :=
  if depth ≥ cfg.maxCommentDepth ∨ commentIds = [] then st
  else
    let newCommentIds := commentIds.filter
      (fun cid => cid ∉ st.seenItems ∧ HNId.item cid ∉ processedIds)
    if newCommentIds = [] then st
    else
      let st0 := { st with fetchLog := st.fetchLog ++ newCommentIds.map HNId.item }
      let batchComments := fetch_batch cfg.batchSize newCommentIds env.getItem
      let step := processCommentBatch cfg depth parentCategory batchComments st0
      let commentAuthors := step.2.1
      let childCommentIds := step.2.2
      let st2 :=
        if commentAuthors = [] then step.1
        else
          let stl := { step.1 with
            fetchLog := step.1.fetchLog ++ commentAuthors.map HNId.user }
          appendUsers (fetch_batch cfg.batchSize commentAuthors env.getUser)
            ("commenter_on_" ++ parentCategory) stl
      if _h : childCommentIds ≠ [] ∧ depth < cfg.maxCommentDepth - 1 then
        get_comments_with_metadata env cfg childCommentIds st2 processedIds
          (depth + 1) parentCategory
      else st2
  termination_by cfg.maxCommentDepth - depth
  decreasing_by omega

/-- `get_comments_with_metadata` with an explicit recursion budget, used to
express termination: a budget of `max_comment_depth - depth` levels always
suffices (`get_comments_with_metadata_eq_fuel`).  The body is that of
`get_comments_with_metadata`, with the recursive call spending one unit of
fuel. -/
def getCommentsWithFuel (env : Corpus) (cfg : Config) :
    Nat → List Nat → CrawlState → List HNId → Nat → String → CrawlState
  | 0, _, st, _, _, _ => st
  | fuel + 1, commentIds, st, processedIds, depth, parentCategory =>
    if depth ≥ cfg.maxCommentDepth ∨ commentIds = [] then st
    else
      let newCommentIds := commentIds.filter
        (fun cid => cid ∉ st.seenItems ∧ HNId.item cid ∉ processedIds)
      if newCommentIds = [] then st
      else
        let st0 := { st with fetchLog := st.fetchLog ++ newCommentIds.map HNId.item }
        let batchComments := fetch_batch cfg.batchSize newCommentIds env.getItem
        let step := processCommentBatch cfg depth parentCategory batchComments st0
        let commentAuthors := step.2.1
        let childCommentIds := step.2.2
        let st2 :=
          if commentAuthors = [] then step.1
          else
            let stl := { step.1 with
              fetchLog := step.1.fetchLog ++ commentAuthors.map HNId.user }
            appendUsers (fetch_batch cfg.batchSize commentAuthors env.getUser)
              ("commenter_on_" ++ parentCategory) stl
        if _h : childCommentIds ≠ [] ∧ depth < cfg.maxCommentDepth - 1 then
          getCommentsWithFuel env cfg fuel childCommentIds st2 processedIds
            (depth + 1) parentCategory
        else st2

/-- A recursion budget of `max_comment_depth - depth` levels computes
`get_comments_with_metadata` exactly: each recursive call increases `depth`
by one and the function returns as soon as `depth >= max_comment_depth`, so
the recursion performs at most `max_comment_depth` levels. -/
theorem get_comments_with_metadata_eq_fuel (env : Corpus) (cfg : Config) :
    ∀ (fuel : Nat) (commentIds : List Nat) (st : CrawlState)
      (processedIds : List HNId) (depth : Nat) (parentCategory : String),
      cfg.maxCommentDepth - depth ≤ fuel →
      getCommentsWithFuel env cfg fuel commentIds st processedIds depth
          parentCategory =
        get_comments_with_metadata env cfg commentIds st processedIds depth
          parentCategory := by
  intro fuel
  induction fuel with
  | zero =>
    intro ids st p depth cat hf
    have hge : depth ≥ cfg.maxCommentDepth := by omega
    rw [get_comments_with_metadata]
    simp only [getCommentsWithFuel, hge, true_or, if_true]
  | succ f ih =>
    intro ids st p depth cat hf
    rw [get_comments_with_metadata]
    simp only [getCommentsWithFuel]
    by_cases hguard : depth ≥ cfg.maxCommentDepth ∨ ids = []
    · simp only [hguard, if_true]
    · simp only [hguard, if_false]
      by_cases hnew : ids.filter
          (fun cid => cid ∉ st.seenItems ∧ HNId.item cid ∉ p) = []
      · simp only [hnew, if_pos]
      · simp only [hnew, if_neg, ite_false]
        split
        · exact ih _ _ _ _ _ (by omega)
        · rfl

/-- The `for story in batch_stories` loop body of
`Extracter.get_hn_content_with_metadata`: keep only items of type `"story"`,
tag them, append them, mark them seen, collect unseen truthy authors, and
gather the first `max_top_comments` child ids of each story.  Returns the
updated state, the `story_authors` list, and the `all_comment_ids` list. -/
def processStoryBatch (cfg : Config) (category : String) :
    List Item → CrawlState → CrawlState × List String × List Nat
  | [], st => (st, [], [])
  | story :: rest, st =>
    if story.itemType = "story" then
      let tagged : TaggedStory :=
        { item := story, hnCategory := category, hnEndpoint := category }
      let st1 : CrawlState :=
        { st with stories := st.stories ++ [tagged],
                  seenItems := addToSet st.seenItems story.id }
      let authStep : CrawlState × List String :=
        match story.author with
        | some a =>
          if a ≠ "" ∧ a ∉ st1.seenUsers then
            ({ st1 with seenUsers := addToSet st1.seenUsers a }, [a])
          else (st1, [])
        | none => (st1, [])
      let myCommentIds : List Nat :=
        if story.kids ≠ [] then story.kids.take cfg.maxTopComments else []
      let next := processStoryBatch cfg category rest authStep.1
      (next.1, authStep.2 ++ next.2.1, myCommentIds ++ next.2.2)
    else
      processStoryBatch cfg category rest st

/-- One iteration of the `for category, story_ids in ...` loop of
`Extracter.get_hn_content_with_metadata`: filter the root ids against
`processed_ids`, fetch the remainder, keep stories, fetch their authors, and
expand the collected top-level comment ids at depth 0. -/
def processCategory (env : Corpus) (cfg : Config) (processedIds : List HNId)
    (st : CrawlState) (category : String) (storyIds : List Nat) : CrawlState :=
  let newStoryIds := storyIds.filter (fun sid => HNId.item sid ∉ processedIds)
  if newStoryIds = [] then st
  else
    let st0 := { st with fetchLog := st.fetchLog ++ newStoryIds.map HNId.item }
    let batchStories := fetch_batch cfg.batchSize newStoryIds env.getItem
    let step := processStoryBatch cfg category batchStories st0
    let storyAuthors := step.2.1
    let allCommentIds := step.2.2
    let st2 :=
      if storyAuthors = [] then step.1
      else
        let stl := { step.1 with
          fetchLog := step.1.fetchLog ++ storyAuthors.map HNId.user }
        appendUsers (fetch_batch cfg.batchSize storyAuthors env.getUser)
          ("author_of_" ++ category ++ "_story") stl
    if allCommentIds ≠ [] then
      get_comments_with_metadata env cfg allCommentIds st2 processedIds 0 category
    else st2

/-- `Extracter.get_hn_content_with_metadata`: process each category in order,
starting from empty collections and empty seen-sets. -/
def get_hn_content_with_metadata (env : Corpus) (cfg : Config)
    (storyIdsByCategory : List (String × List Nat)) (processedIds : List HNId) :
    CrawlState :=
  storyIdsByCategory.foldl
    (fun st p => processCategory env cfg processedIds st p.1 p.2) {}

/-- `processCategory` with the comment recursion run on an explicit budget of
`max_comment_depth` levels (enough for the call at depth 0). -/
def processCategoryFuel (env : Corpus) (cfg : Config) (processedIds : List HNId)
    (st : CrawlState) (category : String) (storyIds : List Nat) : CrawlState :=
  let newStoryIds := storyIds.filter (fun sid => HNId.item sid ∉ processedIds)
  if newStoryIds = [] then st
  else
    let st0 := { st with fetchLog := st.fetchLog ++ newStoryIds.map HNId.item }
    let batchStories := fetch_batch cfg.batchSize newStoryIds env.getItem
    let step := processStoryBatch cfg category batchStories st0
    let storyAuthors := step.2.1
    let allCommentIds := step.2.2
    let st2 :=
      if storyAuthors = [] then step.1
      else
        let stl := { step.1 with
          fetchLog := step.1.fetchLog ++ storyAuthors.map HNId.user }
        appendUsers (fetch_batch cfg.batchSize storyAuthors env.getUser)
          ("author_of_" ++ category ++ "_story") stl
    if allCommentIds ≠ [] then
      getCommentsWithFuel env cfg cfg.maxCommentDepth allCommentIds st2
        processedIds 0 category
    else st2

theorem processCategoryFuel_eq (env : Corpus) (cfg : Config)
    (processedIds : List HNId) (st : CrawlState) (category : String)
    (storyIds : List Nat) :
    processCategoryFuel env cfg processedIds st category storyIds =
      processCategory env cfg processedIds st category storyIds := by
  unfold processCategoryFuel processCategory
  by_cases hnew : storyIds.filter (fun sid => HNId.item sid ∉ processedIds) = []
  · simp only [hnew, if_pos]
  · simp only [hnew, if_neg, ite_false]
    split
    · exact get_comments_with_metadata_eq_fuel env cfg cfg.maxCommentDepth _ _ _ 0 _
        (by omega)
    · rfl

/-- `get_hn_content_with_metadata` computed with explicit fuel — a
kernel-reducible formulation used to evaluate the crawler on concrete
corpora. -/
def getHnContentFuel (env : Corpus) (cfg : Config)
    (storyIdsByCategory : List (String × List Nat)) (processedIds : List HNId) :
    CrawlState :=
  storyIdsByCategory.foldl
    (fun st p => processCategoryFuel env cfg processedIds st p.1 p.2) {}

theorem get_hn_content_eq_fuel (env : Corpus) (cfg : Config)
    (storyIdsByCategory : List (String × List Nat)) (processedIds : List HNId) :
    getHnContentFuel env cfg storyIdsByCategory processedIds =
      get_hn_content_with_metadata env cfg storyIdsByCategory processedIds := by
  unfold getHnContentFuel get_hn_content_with_metadata
  congr 1
  funext st p
  exact processCategoryFuel_eq env cfg processedIds st p.1 p.2

/-- Items of the batch kept by the comment loop: those of type `"comment"`. -/
def keptComments (batch : List Item) : List Item :=
  batch.filter (fun c => c.itemType = "comment")

/-- Items of the batch kept by the story loop: those of type `"story"`. -/
def keptStories (batch : List Item) : List Item :=
  batch.filter (fun s => s.itemType = "story")

/-- The metadata tagging applied to a kept comment. -/
def tagComment (cat : String) (depth : Nat) (c : Item) : TaggedComment :=
  { item := c, hnCategory := cat,
    hnContext := "comment_on_" ++ cat ++ "_story", hnDepth := depth }

/-- The metadata tagging applied to a kept story. -/
def tagStory (cat : String) (s : Item) : TaggedStory :=
  { item := s, hnCategory := cat, hnEndpoint := cat }

/-- The truthy authors of a list of kept items, in order. -/
def authorsOf (batch : List Item) : List String :=
  batch.filterMap (fun c =>
    match c.author with
    | some a => if a = "" then none else some a
    | none => none)

/-- The child ids a kept comment contributes to the next level. -/
def childContribution (cfg : Config) (depth : Nat) (c : Item) : List Nat :=
  if c.kids ≠ [] ∧ depth < cfg.maxCommentDepth - 1 then
    c.kids.take cfg.maxChildComments
  else []

/-- The comment ids a kept story contributes to the initial expansion. -/
def topContribution (cfg : Config) (s : Item) : List Nat :=
  if s.kids ≠ [] then s.kids.take cfg.maxTopComments else []

/-- The names of a list that are not yet in `seen`, first occurrences only:
the author-collection discipline of both loops. -/
def newNames (seen : List String) : List String → List String
  | [] => []
  | a :: rest =>
    if a ∈ seen then newNames seen rest
    else a :: newNames (addToSet seen a) rest

theorem addToSet_of_mem [DecidableEq α] {s : List α} {a : α} (h : a ∈ s) :
    addToSet s a = s := by
  simp [addToSet, h]

theorem mem_addToSet [DecidableEq α] {s : List α} {a b : α} :
    b ∈ addToSet s a ↔ b ∈ s ∨ b = a := by
  by_cases h : a ∈ s
  · rw [addToSet_of_mem h]
    constructor
    · exact Or.inl
    · rintro (hb | rfl)
      · exact hb
      · exact h
  · simp [addToSet, h]

/-- Full characterization of the `for comment in batch_comments` loop: the
kept comments are tagged and appended, their ids are added to `seen_items`,
their fresh truthy authors are collected once each and added to `seen_users`,
and each kept comment contributes `childContribution` ids to the next
level. -/
theorem processCommentBatch_eq (cfg : Config) (depth : Nat) (cat : String) :
    ∀ (batch : List Item) (st : CrawlState),
      processCommentBatch cfg depth cat batch st =
        ({ st with
            comments := st.comments ++ (keptComments batch).map (tagComment cat depth),
            seenItems := ((keptComments batch).map Item.id).foldl addToSet st.seenItems,
            seenUsers := (authorsOf (keptComments batch)).foldl addToSet st.seenUsers },
         newNames st.seenUsers (authorsOf (keptComments batch)),
         ((keptComments batch).map (childContribution cfg depth)).flatten) := by
  intro batch
  induction batch with
  | nil =>
    intro st
    simp [processCommentBatch, keptComments, authorsOf, newNames]
  | cons c rest ih =>
    intro st
    by_cases hty : c.itemType = "comment"
    · cases hau : c.author with
      | none =>
        simp only [processCommentBatch, hty, if_true, ite_true, hau]
        rw [ih]
        simp [keptComments, authorsOf, tagComment, hty, hau, List.filter_cons,
          childContribution]
      | some a =>
        by_cases hnew : a ≠ "" ∧ a ∉ st.seenUsers
        · simp only [processCommentBatch, hty, if_true, ite_true, hau, hnew]
          rw [ih]
          have ha : ¬ a = "" := hnew.1
          simp [keptComments, authorsOf, tagComment, hty, hau, List.filter_cons,
            childContribution, newNames, ha, hnew.2]
        · simp only [processCommentBatch, hty, if_true, ite_true, hau, hnew,
            if_false]
          rw [ih]
          by_cases ha : a = ""
          · simp [keptComments, authorsOf, tagComment, hty, hau, List.filter_cons,
              childContribution, ha]
          · have hmem : a ∈ st.seenUsers := by
              rcases not_and_or.mp hnew with h1 | h2
              · exact absurd (not_not.mp h1) ha
              · exact not_not.mp h2
            simp [keptComments, authorsOf, tagComment, hty, hau, List.filter_cons,
              childContribution, ha, newNames, hmem, addToSet_of_mem hmem]
    · simp only [processCommentBatch, hty, if_false, ite_false]
      rw [ih]
      simp [keptComments, authorsOf, hty, List.filter_cons]

/-- Full characterization of the `for story in batch_stories` loop, the story
analog of `processCommentBatch_eq`:  kept stories are tagged and appended,
their ids are marked seen, their fresh truthy authors are collected once
each, and each kept story contributes `topContribution` comment ids. -/
theorem processStoryBatch_eq (cfg : Config) (cat : String) :
    ∀ (batch : List Item) (st : CrawlState),
      processStoryBatch cfg cat batch st =
        ({ st with
            stories := st.stories ++ (keptStories batch).map (tagStory cat),
            seenItems := ((keptStories batch).map Item.id).foldl addToSet st.seenItems,
            seenUsers := (authorsOf (keptStories batch)).foldl addToSet st.seenUsers },
         newNames st.seenUsers (authorsOf (keptStories batch)),
         ((keptStories batch).map (topContribution cfg)).flatten) := by
  intro batch
  induction batch with
  | nil =>
    intro st
    simp [processStoryBatch, keptStories, authorsOf, newNames]
  | cons c rest ih =>
    intro st
    by_cases hty : c.itemType = "story"
    · cases hau : c.author with
      | none =>
        simp only [processStoryBatch, hty, if_true, ite_true, hau]
        rw [ih]
        simp [keptStories, authorsOf, tagStory, hty, hau, List.filter_cons,
          topContribution]
      | some a =>
        by_cases hnew : a ≠ "" ∧ a ∉ st.seenUsers
        · simp only [processStoryBatch, hty, if_true, ite_true, hau, hnew]
          rw [ih]
          have ha : ¬ a = "" := hnew.1
          simp [keptStories, authorsOf, tagStory, hty, hau, List.filter_cons,
            topContribution, newNames, ha, hnew.2]
        · simp only [processStoryBatch, hty, if_true, ite_true, hau, hnew,
            if_false]
          rw [ih]
          by_cases ha : a = ""
          · simp [keptStories, authorsOf, tagStory, hty, hau, List.filter_cons,
              topContribution, ha]
          · have hmem : a ∈ st.seenUsers := by
              rcases not_and_or.mp hnew with h1 | h2
              · exact absurd (not_not.mp h1) ha
              · exact not_not.mp h2
            simp [keptStories, authorsOf, tagStory, hty, hau, List.filter_cons,
              topContribution, ha, newNames, hmem, addToSet_of_mem hmem]
    · simp only [processStoryBatch, hty, if_false, ite_false]
      rw [ih]
      simp [keptStories, authorsOf, hty, List.filter_cons]

/-- `appendUsers` only appends to the `users` list. -/
theorem appendUsers_eq (users : List UserProf) (context : String) :
    ∀ st : CrawlState,
      appendUsers users context st =
        { st with users := st.users ++
            users.map (fun u => { profile := u, hnContext := context }) } := by
  induction users with
  | nil => intro st; simp [appendUsers]
  | cons u us ih =>
    intro st
    show appendUsers us context _ = _
    rw [ih]
    simp

/-- On-disk state of `processed_ids.json`: missing, unreadable/corrupt, or a
readable JSON list of ids. -/
inductive LedgerFile where
  | absent
  | corrupt
  | valid : List HNId → LedgerFile
  deriving Repr, DecidableEq

/-- `load_processed_ids`:
`set(json.load(open(ids_file))) if os.path.exists(ids_file) else set()`.
A missing file yields the empty set; a present file is parsed by `json.load`,
which raises on corrupt content — there is no surrounding try/except, so the
exception propagates to the caller. -/
def load_processed_ids : LedgerFile → Except Unit (List HNId)
  | .absent => .ok []
  | .corrupt => .error ()
  | .valid l => .ok l

/-- What `Extracter.fetch_hackernews_data` produces, with ghost visibility
into the writes `save_raw_data` performs: the final crawl state (empty when
the run short-circuits), the `total_new_stories` count, whether the snapshot
files were written, and the id list passed to `save_processed_ids` (`none`
when it was never called, so the on-disk ledger is untouched). -/
structure RunOutcome where
  crawl : CrawlState
  totalNewStories : Nat
  snapshotWritten : Bool
  savedLedger : Option (List HNId)
  deriving Repr, DecidableEq

/-- `new_items = data["stories"] + data["comments"] + data["users"]`, reduced
to the ids the ledger update reads from it. -/
def CrawlState.emittedIds (st : CrawlState) : List HNId :=
  st.stories.map (fun s => HNId.item s.item.id) ++
    st.comments.map (fun c => HNId.item c.item.id) ++
    st.users.map (fun u => HNId.user u.profile.id)

/-- `Extracter.fetch_hackernews_data`: load the ledger (propagating any
exception), list and filter root story ids, short-circuit with an empty list
when nothing is new, otherwise crawl, write the snapshot unconditionally, and
merge the truthy emitted ids into the ledger. -/
def fetch_hackernews_data (env : Corpus) (cfg : Config) (ledger : LedgerFile) :
    Except Unit RunOutcome := do
  let processedIds ← load_processed_ids ledger
  let allStoryIds := env.getAllStories cfg.storiesPerCategory
  let newStoryIdsByCategory := allStoryIds.map
    (fun p => (p.1, p.2.filter (fun sid => HNId.item sid ∉ processedIds)))
  let totalNewStories := (newStoryIdsByCategory.map (fun p => p.2.length)).sum
  if totalNewStories = 0 then
    return { crawl := {}, totalNewStories := 0,
             snapshotWritten := false, savedLedger := none }
  else
    let data := get_hn_content_with_metadata env cfg newStoryIdsByCategory
      processedIds
    let newIds := data.emittedIds.filter (fun i => i.truthy)
    let updated := newIds.foldl addToSet processedIds
    return { crawl := data, totalNewStories := totalNewStories,
             snapshotWritten := true, savedLedger := some updated }

/-- The on-disk ledger after a run: rewritten by `save_processed_ids` when it
was called, untouched otherwise. -/
def ledgerAfter (ledger : LedgerFile) (outcome : RunOutcome) : LedgerFile :=
  match outcome.savedLedger with
  | some l => .valid l
  | none => ledger

/-- The ids one comment level actually fetches: the input ids filtered
against the in-run seen set and the ledger. -/
def levelNewIds (st : CrawlState) (p : List HNId) (ids : List Nat) : List Nat :=
  ids.filter (fun cid => cid ∉ st.seenItems ∧ HNId.item cid ∉ p)

/-- The kept (type `"comment"`) items fetched at one comment level. -/
def levelKept (env : Corpus) (cfg : Config) (st : CrawlState) (p : List HNId)
    (ids : List Nat) : List Item :=
  keptComments (fetch_batch cfg.batchSize (levelNewIds st p ids) env.getItem)

/-- The combined child-id list one comment level queues for the next depth. -/
def levelChildIds (env : Corpus) (cfg : Config) (st : CrawlState) (p : List HNId)
    (ids : List Nat) (depth : Nat) : List Nat :=
  ((levelKept env cfg st p ids).map (childContribution cfg depth)).flatten

/-- The crawl state after one comment level's work, spelled out field by
field (proved equal to the source's behavior in
`getCommentsWithFuel_level`). -/
def commentLevelState (env : Corpus) (cfg : Config) (ids : List Nat)
    (st : CrawlState) (p : List HNId) (depth : Nat) (cat : String) : CrawlState :=
  let B := levelKept env cfg st p ids
  let authors := newNames st.seenUsers (authorsOf B)
  { stories := st.stories,
    comments := st.comments ++ B.map (tagComment cat depth),
    users := st.users ++ (if authors = [] then [] else
      (fetch_batch cfg.batchSize authors env.getUser).map
        (fun u => { profile := u, hnContext := "commenter_on_" ++ cat })),
    seenItems := (B.map Item.id).foldl addToSet st.seenItems,
    seenUsers := (authorsOf B).foldl addToSet st.seenUsers,
    fetchLog := st.fetchLog ++ (levelNewIds st p ids).map HNId.item ++
      (if authors = [] then [] else authors.map HNId.user) }

/-- A comment level with nothing new to fetch leaves the state untouched. -/
theorem getCommentsWithFuel_of_newIds_nil (env : Corpus) (cfg : Config)
    (fuel : Nat) (ids : List Nat) (st : CrawlState) (p : List HNId)
    (depth : Nat) (cat : String) (hnew : levelNewIds st p ids = []) :
    getCommentsWithFuel env cfg fuel ids st p depth cat = st := by
  cases fuel with
  | zero => rfl
  | succ f =>
    rw [getCommentsWithFuel]
    by_cases hguard : depth ≥ cfg.maxCommentDepth ∨ ids = []
    · rw [if_pos hguard]
    · rw [if_neg hguard]
      simp only [levelNewIds] at hnew
      simp only [hnew]
      simp

/-- One step of `get_comments_with_metadata` (fuel form), with the level's
work spelled out via the loop characterizations. -/
theorem getCommentsWithFuel_level (env : Corpus) (cfg : Config) (f : Nat)
    (ids : List Nat) (st : CrawlState) (p : List HNId) (depth : Nat) (cat : String)
    (hguard : ¬(depth ≥ cfg.maxCommentDepth ∨ ids = []))
    (hnew : levelNewIds st p ids ≠ []) :
    getCommentsWithFuel env cfg (f + 1) ids st p depth cat =
      if levelChildIds env cfg st p ids depth ≠ [] ∧
          depth < cfg.maxCommentDepth - 1 then
        getCommentsWithFuel env cfg f (levelChildIds env cfg st p ids depth)
          (commentLevelState env cfg ids st p depth cat) p (depth + 1) cat
      else commentLevelState env cfg ids st p depth cat := by
  conv_lhs => rw [getCommentsWithFuel]
  rw [if_neg hguard]
  simp only [levelNewIds] at hnew
  by_cases hauth : newNames st.seenUsers (authorsOf (levelKept env cfg st p ids)) = [] <;>
    simp only [levelKept, levelNewIds, levelChildIds, commentLevelState] at hauth ⊢ <;>
    simp only [hnew, if_neg, ite_false, processCommentBatch_eq, appendUsers_eq,
      hauth, if_true, if_false, ite_true, dite_eq_ite, List.append_nil] <;>
    rfl

/-- The root story ids of one category that survive the ledger filter. -/
def categoryNewIds (p : List HNId) (ids : List Nat) : List Nat :=
  ids.filter (fun sid => HNId.item sid ∉ p)

/-- The kept (type `"story"`) items fetched for one category. -/
def categoryKept (env : Corpus) (cfg : Config) (p : List HNId)
    (ids : List Nat) : List Item :=
  keptStories (fetch_batch cfg.batchSize (categoryNewIds p ids) env.getItem)

/-- The combined top-level comment-id list one category queues for depth 0. -/
def categoryCommentIds (env : Corpus) (cfg : Config) (p : List HNId)
    (ids : List Nat) : List Nat :=
  ((categoryKept env cfg p ids).map (topContribution cfg)).flatten

/-- The crawl state after one category's story work (before the comment
expansion), spelled out field by field. -/
def categoryLevelState (env : Corpus) (cfg : Config) (p : List HNId)
    (st : CrawlState) (cat : String) (ids : List Nat) : CrawlState :=
  let B := categoryKept env cfg p ids
  let authors := newNames st.seenUsers (authorsOf B)
  { stories := st.stories ++ B.map (tagStory cat),
    comments := st.comments,
    users := st.users ++ (if authors = [] then [] else
      (fetch_batch cfg.batchSize authors env.getUser).map
        (fun u => { profile := u, hnContext := "author_of_" ++ cat ++ "_story" })),
    seenItems := (B.map Item.id).foldl addToSet st.seenItems,
    seenUsers := (authorsOf B).foldl addToSet st.seenUsers,
    fetchLog := st.fetchLog ++ (categoryNewIds p ids).map HNId.item ++
      (if authors = [] then [] else authors.map HNId.user) }

/-- A category whose root ids are all in the ledger is skipped. -/
theorem processCategory_of_newIds_nil (env : Corpus) (cfg : Config)
    (p : List HNId) (st : CrawlState) (cat : String) (ids : List Nat)
    (hnew : categoryNewIds p ids = []) :
    processCategory env cfg p st cat ids = st := by
  unfold processCategory
  simp only [categoryNewIds] at hnew
  simp only [hnew]
  simp

/-- One category iteration of `get_hn_content_with_metadata`, with the story
work spelled out and the comment expansion as a call at depth 0. -/
theorem processCategory_eq (env : Corpus) (cfg : Config) (p : List HNId)
    (st : CrawlState) (cat : String) (ids : List Nat)
    (hnew : categoryNewIds p ids ≠ []) :
    processCategory env cfg p st cat ids =
      if categoryCommentIds env cfg p ids ≠ [] then
        get_comments_with_metadata env cfg (categoryCommentIds env cfg p ids)
          (categoryLevelState env cfg p st cat ids) p 0 cat
      else categoryLevelState env cfg p st cat ids := by
  unfold processCategory
  simp only [categoryNewIds] at hnew
  by_cases hauth : newNames st.seenUsers (authorsOf (categoryKept env cfg p ids)) = [] <;>
    simp only [categoryKept, categoryNewIds, categoryCommentIds,
      categoryLevelState] at hauth ⊢ <;>
    simp only [hnew, if_neg, ite_false, processStoryBatch_eq, appendUsers_eq,
      hauth, if_true, if_false, ite_true, List.append_nil]

/-! ## Claim theorems -/

/-- A fetch function used in witnesses: ids ending in 3 raise, ids ending in
9 fetch as null, the rest succeed. -/
def flakyFetch : Nat → Fetch Nat :=
  fun i => if i % 10 = 3 then .exn else if i % 10 = 9 then .null else .val i

/-- An empty source corpus. -/
def envEmpty : Corpus :=
  { itemEntries := [], userEntries := [], categoryStoryLists := [] }

/-- C5: for every id list, fetch function and positive batch size,
`fetch_batch` partitions the ids into consecutive groups of at most
`batchSize`; every id whose fetch raises or returns a falsy result is
excluded, every truthy non-exception result is included in order, and the
function itself is total — a per-item failure never escapes it. -/
theorem C5_fetch_batch_spec (bs : Nat) (ids : List Nat)
    (fetchFunc : Nat → Fetch Nat) (hbs : 0 < bs) :
    (chunks bs ids).flatten = ids ∧
    (∀ c ∈ chunks bs ids, c.length ≤ bs) ∧
    fetch_batch bs ids fetchFunc =
      ids.filterMap (fun i => (fetchFunc i).toOption) :=
  ⟨chunks_flatten bs ids hbs, chunks_length_le bs ids hbs,
    fetch_batch_eq_filterMap bs ids fetchFunc hbs⟩

/-- Witness for C5 at a concrete input: batch size 2 over five ids, one
raising and one null; exactly the three successes survive, in order. -/
theorem C5_witness :
    (chunks 2 [1, 3, 9, 4, 7]).flatten = [1, 3, 9, 4, 7] ∧
    (∀ c ∈ chunks 2 [1, 3, 9, 4, 7], c.length ≤ 2) ∧
    fetch_batch 2 [1, 3, 9, 4, 7] flakyFetch = [1, 4, 7] := by
  obtain ⟨h1, h2, h3⟩ := C5_fetch_batch_spec 2 [1, 3, 9, 4, 7] flakyFetch (by decide)
  exact ⟨h1, h2, h3.trans (by decide)⟩

/-- C7 counterexample: a corrupt ledger file is not treated as the empty
set — `load_processed_ids` propagates the `json.load` exception instead of
returning any `ok` value. -/
theorem C7_counterexample :
    load_processed_ids .corrupt = .error () ∧
    load_processed_ids .corrupt ≠ .ok [] := by
  refine ⟨rfl, ?_⟩
  intro h
  simp [load_processed_ids] at h

/-- C7 (amended): loading the ledger returns the empty set when the file is
absent and the stored ids when it is readable, but a corrupt file makes
`json.load` raise — there is no try/except, so the exception propagates out
of `load_processed_ids` and aborts `fetch_hackernews_data` instead of being
treated as an empty ledger. -/
theorem C7_load_ledger_amended (env : Corpus) (cfg : Config) (l : List HNId) :
    load_processed_ids .absent = .ok [] ∧
    load_processed_ids (.valid l) = .ok l ∧
    load_processed_ids .corrupt = .error () ∧
    fetch_hackernews_data env cfg .corrupt = .error () :=
  ⟨rfl, rfl, rfl, rfl⟩

/-- C9: `get_comments_with_metadata` terminates and does so within
`max_comment_depth` levels: it returns immediately when
`depth >= max_comment_depth` or the id list is empty, and a recursion budget
of `max_comment_depth - depth` levels (each recursive call raising `depth`
by exactly 1) already computes the same result as the unbounded recursion. -/
theorem C9_get_comments_terminates (env : Corpus) (cfg : Config)
    (commentIds : List Nat) (st : CrawlState) (processedIds : List HNId)
    (depth : Nat) (parentCategory : String) :
    (depth ≥ cfg.maxCommentDepth ∨ commentIds = [] →
      get_comments_with_metadata env cfg commentIds st processedIds depth
        parentCategory = st) ∧
    (∀ fuel, cfg.maxCommentDepth - depth ≤ fuel →
      getCommentsWithFuel env cfg fuel commentIds st processedIds depth
          parentCategory =
        get_comments_with_metadata env cfg commentIds st processedIds depth
          parentCategory) := by
  constructor
  · intro h
    rw [get_comments_with_metadata]
    rw [if_pos h]
  · intro fuel hf
    exact get_comments_with_metadata_eq_fuel env cfg fuel _ _ _ _ _ hf

/-- Witness for C9 at concrete inputs: with the default configuration
(`max_comment_depth = 3`) the call at depth 3 returns its state unchanged,
and a budget of 3 levels computes the depth-0 call. -/
theorem C9_witness :
    get_comments_with_metadata envEmpty {} [5] {} [] 3 "topstories" = {} ∧
    getCommentsWithFuel envEmpty {} 3 [5] {} [] 0 "topstories" =
      get_comments_with_metadata envEmpty {} [5] {} [] 0 "topstories" :=
  ⟨(C9_get_comments_terminates envEmpty {} [5] {} [] 3 "topstories").1
      (Or.inl (by decide)),
    (C9_get_comments_terminates envEmpty {} [5] {} [] 0 "topstories").2 3
      (by decide)⟩

/-- Depth-bound walk over the comment recursion (fuel form): emitted comments
carry `hnDepth` below `max_comment_depth`, given the invariant holds of the
incoming state. -/
theorem getCommentsWithFuel_depth_bound (env : Corpus) (cfg : Config) :
    ∀ (fuel : Nat) (ids : List Nat) (st : CrawlState) (p : List HNId)
      (depth : Nat) (cat : String),
      (∀ tc ∈ st.comments, tc.hnDepth < cfg.maxCommentDepth) →
      ∀ tc ∈ (getCommentsWithFuel env cfg fuel ids st p depth cat).comments,
        tc.hnDepth < cfg.maxCommentDepth := by
  intro fuel
  induction fuel with
  | zero => intro ids st p depth cat hst; exact hst
  | succ f ih =>
    intro ids st p depth cat hst
    by_cases hguard : depth ≥ cfg.maxCommentDepth ∨ ids = []
    · rw [getCommentsWithFuel, if_pos hguard]
      exact hst
    · by_cases hnew : levelNewIds st p ids = []
      · rw [getCommentsWithFuel_of_newIds_nil env cfg (f + 1) ids st p depth cat hnew]
        exact hst
      · rw [getCommentsWithFuel_level env cfg f ids st p depth cat hguard hnew]
        have hdlt : depth < cfg.maxCommentDepth := by
          rcases not_or.mp hguard with ⟨h1, _⟩
          omega
        have hst2 : ∀ tc ∈ (commentLevelState env cfg ids st p depth cat).comments,
            tc.hnDepth < cfg.maxCommentDepth := by
          intro tc htc
          simp only [commentLevelState, List.mem_append, List.mem_map] at htc
          rcases htc with h | ⟨c, hc, rfl⟩
          · exact hst tc h
          · simpa [tagComment] using hdlt
        split
        · exact ih _ _ p _ cat hst2
        · exact hst2

/-- Depth-bound walk transferred to `get_comments_with_metadata` itself. -/
theorem get_comments_depth_bound (env : Corpus) (cfg : Config) (ids : List Nat)
    (st : CrawlState) (p : List HNId) (depth : Nat) (cat : String)
    (hst : ∀ tc ∈ st.comments, tc.hnDepth < cfg.maxCommentDepth) :
    ∀ tc ∈ (get_comments_with_metadata env cfg ids st p depth cat).comments,
      tc.hnDepth < cfg.maxCommentDepth := by
  rw [← get_comments_with_metadata_eq_fuel env cfg (cfg.maxCommentDepth - depth)
    ids st p depth cat le_rfl]
  exact getCommentsWithFuel_depth_bound env cfg _ ids st p depth cat hst

/-- Depth bound through one category iteration. -/
theorem processCategory_depth_bound (env : Corpus) (cfg : Config) (p : List HNId)
    (st : CrawlState) (cat : String) (ids : List Nat)
    (hst : ∀ tc ∈ st.comments, tc.hnDepth < cfg.maxCommentDepth) :
    ∀ tc ∈ (processCategory env cfg p st cat ids).comments,
      tc.hnDepth < cfg.maxCommentDepth := by
  by_cases hnew : categoryNewIds p ids = []
  · rw [processCategory_of_newIds_nil env cfg p st cat ids hnew]
    exact hst
  · rw [processCategory_eq env cfg p st cat ids hnew]
    have hst2 : ∀ tc ∈ (categoryLevelState env cfg p st cat ids).comments,
        tc.hnDepth < cfg.maxCommentDepth := by
      intro tc htc
      exact hst tc htc
    split
    · exact get_comments_depth_bound env cfg _ _ p 0 cat hst2
    · exact hst2

/-- C3: every comment emitted by the crawler carries an `hn_depth` tag
strictly below the configured `max_comment_depth`: expansion returns
immediately at `depth >= max_comment_depth`, tags each kept comment with the
current depth, and only recurses to `depth + 1` when
`depth < max_comment_depth - 1`. -/
theorem C3_depth_bound (env : Corpus) (cfg : Config)
    (storyIdsByCategory : List (String × List Nat)) (processedIds : List HNId) :
    ∀ tc ∈ (get_hn_content_with_metadata env cfg storyIdsByCategory
        processedIds).comments,
      tc.hnDepth < cfg.maxCommentDepth := by
  unfold get_hn_content_with_metadata
  have hgen : ∀ (cats : List (String × List Nat)) (st : CrawlState),
      (∀ tc ∈ st.comments, tc.hnDepth < cfg.maxCommentDepth) →
      ∀ tc ∈ (cats.foldl
          (fun st q => processCategory env cfg processedIds st q.1 q.2) st).comments,
        tc.hnDepth < cfg.maxCommentDepth := by
    intro cats
    induction cats with
    | nil => intro st hst; exact hst
    | cons q rest ihc =>
      intro st hst
      exact ihc _ (processCategory_depth_bound env cfg processedIds st q.1 q.2 hst)
  exact hgen storyIdsByCategory {} (by intro tc htc; cases htc)

/-- A small well-formed source corpus used by confirming witnesses: one story
with two comments, a second-level reply, and a job posting. -/
def envA : Corpus :=
  { itemEntries := [
      (1, .val { id := 1, itemType := "story", author := some "alice", kids := [5, 6] }),
      (2, .val { id := 2, itemType := "job", author := some "corp", kids := [] }),
      (5, .val { id := 5, itemType := "comment", author := some "bob", kids := [7] }),
      (6, .val { id := 6, itemType := "comment", author := some "carol", kids := [] }),
      (7, .val { id := 7, itemType := "comment", author := some "alice", kids := [] })],
    userEntries := [
      ("alice", .val { id := "alice" }),
      ("bob", .val { id := "bob" })],
    categoryStoryLists := [("topstories", [1]), ("newstories", [2])] }

/-- The tagged comment that `envA` produces for id 5. -/
def c3Comment : TaggedComment :=
  { item := { id := 5, itemType := "comment", author := some "bob", kids := [7] },
    hnCategory := "topstories",
    hnContext := "comment_on_topstories_story",
    hnDepth := 0 }

/-- Witness for C3: on `envA`, the comment with id 5 is emitted at depth 0,
below the default `max_comment_depth = 3`. -/
theorem C3_witness :
    c3Comment ∈
      (get_hn_content_with_metadata envA {}
        [("topstories", [1]), ("newstories", [2])] []).comments ∧
    c3Comment.hnDepth < ({} : Config).maxCommentDepth := by
  have hm : c3Comment ∈
      (get_hn_content_with_metadata envA {}
        [("topstories", [1]), ("newstories", [2])] []).comments := by
    rw [← get_hn_content_eq_fuel]
    decide
  exact ⟨hm, C3_depth_bound envA {} [("topstories", [1]), ("newstories", [2])] [] _ hm⟩

/-- C4: fan-out truncation.  The ids a category hands to the initial comment
expansion are exactly `categoryCommentIds` (first conjunct, the source
equation), and every one of them lies in the first `max_top_comments` child
ids of some kept story; each kept story contributes at most
`max_top_comments` ids.  One comment level queues exactly `levelChildIds`
(third conjunct), every queued id lies in the first `max_child_comments`
child ids of some kept comment of that level, each kept comment contributes
at most `max_child_comments` ids, and a terminal depth
(`depth >= max_comment_depth - 1`) queues nothing: excess children are
dropped, never deferred. -/
theorem C4_fanout_bound (env : Corpus) (cfg : Config) (p : List HNId)
    (st stc : CrawlState) (cat : String) (ids cids : List Nat) (depth f : Nat) :
    (categoryNewIds p ids ≠ [] →
      processCategory env cfg p st cat ids =
        (if categoryCommentIds env cfg p ids ≠ [] then
          get_comments_with_metadata env cfg (categoryCommentIds env cfg p ids)
            (categoryLevelState env cfg p st cat ids) p 0 cat
        else categoryLevelState env cfg p st cat ids)) ∧
    (∀ i ∈ categoryCommentIds env cfg p ids,
      ∃ s ∈ categoryKept env cfg p ids, i ∈ s.kids.take cfg.maxTopComments) ∧
    (¬(depth ≥ cfg.maxCommentDepth ∨ cids = []) → levelNewIds stc p cids ≠ [] →
      getCommentsWithFuel env cfg (f + 1) cids stc p depth cat =
        (if levelChildIds env cfg stc p cids depth ≠ [] ∧
            depth < cfg.maxCommentDepth - 1 then
          getCommentsWithFuel env cfg f (levelChildIds env cfg stc p cids depth)
            (commentLevelState env cfg cids stc p depth cat) p (depth + 1) cat
        else commentLevelState env cfg cids stc p depth cat)) ∧
    (∀ i ∈ levelChildIds env cfg stc p cids depth,
      ∃ c ∈ levelKept env cfg stc p cids, i ∈ c.kids.take cfg.maxChildComments) ∧
    (∀ s, (topContribution cfg s).length ≤ cfg.maxTopComments) ∧
    (∀ c, (childContribution cfg depth c).length ≤ cfg.maxChildComments) ∧
    (cfg.maxCommentDepth - 1 ≤ depth →
      levelChildIds env cfg stc p cids depth = []) := by
  refine ⟨processCategory_eq env cfg p st cat ids, ?_,
    getCommentsWithFuel_level env cfg f cids stc p depth cat, ?_, ?_, ?_, ?_⟩
  · intro i hi
    simp only [categoryCommentIds, List.mem_flatten, List.mem_map] at hi
    obtain ⟨l, ⟨s, hs, rfl⟩, hil⟩ := hi
    refine ⟨s, hs, ?_⟩
    by_cases hk : s.kids ≠ []
    · simpa [topContribution, hk] using hil
    · simp [topContribution, hk] at hil
  · intro i hi
    simp only [levelChildIds, List.mem_flatten, List.mem_map] at hi
    obtain ⟨l, ⟨c, hc, rfl⟩, hil⟩ := hi
    refine ⟨c, hc, ?_⟩
    by_cases hk : c.kids ≠ [] ∧ depth < cfg.maxCommentDepth - 1
    · simpa [childContribution, hk] using hil
    · simp [childContribution, hk] at hil
  · intro s
    by_cases hk : s.kids ≠ [] <;> simp [topContribution, hk]
  · intro c
    by_cases hk : c.kids ≠ [] ∧ depth < cfg.maxCommentDepth - 1 <;>
      simp [childContribution, hk]
  · intro hterm
    have hlt : ¬ depth < cfg.maxCommentDepth - 1 := by omega
    simp [levelChildIds, childContribution, hlt]

/-- Witness for C4 at concrete inputs: on `envA`, category `topstories` hands
exactly the equation-given ids to the expansion, and depth 2 (terminal for
`max_comment_depth = 3`) queues no children. -/
theorem C4_witness :
    processCategory envA {} [] {} "topstories" [1] =
      (if categoryCommentIds envA {} [] [1] ≠ [] then
        get_comments_with_metadata envA {} (categoryCommentIds envA {} [] [1])
          (categoryLevelState envA {} [] {} "topstories" [1]) [] 0 "topstories"
      else categoryLevelState envA {} [] {} "topstories" [1]) ∧
    levelChildIds envA {} {} [] [5] 2 = [] := by
  obtain ⟨h1, _, _, _, _, _, h7⟩ :=
    C4_fanout_bound envA {} [] {} {} "topstories" [1] [5] 2 0
  exact ⟨h1 (by decide), h7 (by decide)⟩

/-- A successful `List.lookup` comes from an entry of the list. -/
theorem lookup_mem {α β : Type} [BEq α] [LawfulBEq α] :
    ∀ {l : List (α × β)} {a : α} {b : β}, l.lookup a = some b → (a, b) ∈ l := by
  intro l
  induction l with
  | nil => intro a b h; simp [List.lookup] at h
  | cons pr rest ih =>
    intro a b h
    rw [List.lookup] at h
    by_cases heq : a == pr.1
    · simp only [heq] at h
      cases h
      have ha : a = pr.1 := eq_of_beq heq
      rw [ha, Prod.mk.eta]
      exact List.mem_cons_self pr rest
    · simp only [Bool.not_eq_true] at heq
      simp only [heq] at h
      exact List.mem_cons_of_mem pr (ih h)

/-- Decidable well-formedness check for one item entry: a value stored under
a key carries that key as its `id`. -/
def fetchIdOk (key : Nat) : Fetch Item → Bool
  | .val it => it.id == key
  | _ => true

/-- Decidable well-formedness check for one user entry. -/
def fetchNameOk (key : String) : Fetch UserProf → Bool
  | .val u => u.id == key
  | _ => true

/-- The corpus serves items whose `id` field is the requested id — the
contract of the live HN API. -/
def Corpus.ItemsWF (env : Corpus) : Prop :=
  ∀ pr ∈ env.itemEntries, fetchIdOk pr.1 pr.2 = true

/-- The corpus serves user profiles whose `id` field is the requested
username. -/
def Corpus.UsersWF (env : Corpus) : Prop :=
  ∀ pr ∈ env.userEntries, fetchNameOk pr.1 pr.2 = true

instance (env : Corpus) : Decidable env.ItemsWF := by
  unfold Corpus.ItemsWF
  infer_instance

instance (env : Corpus) : Decidable env.UsersWF := by
  unfold Corpus.UsersWF
  infer_instance

theorem itemsWF_id_eq {env : Corpus} (hWF : env.ItemsWF) {i : Nat} {it : Item}
    (h : env.getItem i = .val it) : it.id = i := by
  unfold Corpus.getItem at h
  cases hl : env.itemEntries.lookup i with
  | none => rw [hl] at h; cases h
  | some f =>
    rw [hl] at h
    simp only [Option.getD_some] at h
    subst h
    have := hWF (i, .val it) (lookup_mem hl)
    simpa [fetchIdOk] using this

theorem usersWF_id_eq {env : Corpus} (hWF : env.UsersWF) {n : String}
    {u : UserProf} (h : env.getUser n = .val u) : u.id = n := by
  unfold Corpus.getUser at h
  cases hl : env.userEntries.lookup n with
  | none => rw [hl] at h; cases h
  | some f =>
    rw [hl] at h
    simp only [Option.getD_some] at h
    subst h
    have := hWF (n, .val u) (lookup_mem hl)
    simpa [fetchNameOk] using this

/-- Members of a batch result are values fetched from members of the input
id list. -/
theorem mem_fetch_batch {bs : Nat} {ids : List α} {fetchFunc : α → Fetch β}
    {b : β} (hbs : 0 < bs) (h : b ∈ fetch_batch bs ids fetchFunc) :
    ∃ i ∈ ids, fetchFunc i = .val b := by
  rw [fetch_batch_eq_filterMap bs ids fetchFunc hbs] at h
  rw [List.mem_filterMap] at h
  obtain ⟨i, hi, hv⟩ := h
  refine ⟨i, hi, ?_⟩
  cases hf : fetchFunc i <;> rw [hf] at hv <;> simp [Fetch.toOption] at hv
  rw [hv]

theorem mem_foldl_addToSet [DecidableEq α] :
    ∀ (l : List α) (s : List α) (a : α),
      a ∈ l.foldl addToSet s ↔ a ∈ s ∨ a ∈ l := by
  intro l
  induction l with
  | nil => intro s a; simp
  | cons x xs ih =>
    intro s a
    rw [List.foldl_cons, ih, mem_addToSet, List.mem_cons]
    tauto

/-- The item ids of the emitted stories and comments of a crawl state. -/
def emittedItemIds (st : CrawlState) : List Nat :=
  st.stories.map (fun s => s.item.id) ++ st.comments.map (fun c => c.item.id)

/-- Generic preserved-invariant walk over the comment recursion: any state
predicate preserved by one level's work is preserved by the whole
recursion. -/
theorem getCommentsWithFuel_invariant (env : Corpus) (cfg : Config)
    (p : List HNId) (P : CrawlState → Prop)
    (hstep : ∀ ids st depth cat, depth < cfg.maxCommentDepth →
      levelNewIds st p ids ≠ [] → P st →
      P (commentLevelState env cfg ids st p depth cat)) :
    ∀ (fuel : Nat) (ids : List Nat) (st : CrawlState) (depth : Nat)
      (cat : String), P st →
      P (getCommentsWithFuel env cfg fuel ids st p depth cat) := by
  intro fuel
  induction fuel with
  | zero => intro ids st depth cat hst; exact hst
  | succ f ih =>
    intro ids st depth cat hst
    by_cases hguard : depth ≥ cfg.maxCommentDepth ∨ ids = []
    · rw [getCommentsWithFuel, if_pos hguard]
      exact hst
    · by_cases hnewn : levelNewIds st p ids = []
      · rw [getCommentsWithFuel_of_newIds_nil env cfg (f + 1) ids st p depth cat hnewn]
        exact hst
      · rw [getCommentsWithFuel_level env cfg f ids st p depth cat hguard hnewn]
        have hd : depth < cfg.maxCommentDepth := by
          rcases not_or.mp hguard with ⟨h1, _⟩
          omega
        split
        · exact ih _ _ _ cat (hstep ids st depth cat hd hnewn hst)
        · exact hstep ids st depth cat hd hnewn hst

/-- Generic preserved-invariant walk over the whole crawl: any state
predicate preserved by a category's story work and by a comment level's work
holds of the final crawl state. -/
theorem crawl_invariant (env : Corpus) (cfg : Config) (p : List HNId)
    (P : CrawlState → Prop)
    (hstep : ∀ ids st depth cat, depth < cfg.maxCommentDepth →
      levelNewIds st p ids ≠ [] → P st →
      P (commentLevelState env cfg ids st p depth cat))
    (hcat : ∀ st cat ids, categoryNewIds p ids ≠ [] → P st →
      P (categoryLevelState env cfg p st cat ids)) :
    ∀ (cats : List (String × List Nat)) (st : CrawlState), P st →
      P (cats.foldl (fun st q => processCategory env cfg p st q.1 q.2) st) := by
  intro cats
  induction cats with
  | nil => intro st h; exact h
  | cons q rest ih =>
    intro st h
    rw [List.foldl_cons]
    apply ih
    by_cases hnew : categoryNewIds p q.2 = []
    · rwa [processCategory_of_newIds_nil env cfg p st q.1 q.2 hnew]
    · rw [processCategory_eq env cfg p st q.1 q.2 hnew]
      have h2 := hcat st q.1 q.2 hnew h
      split
      · rw [← get_comments_with_metadata_eq_fuel env cfg cfg.maxCommentDepth _ _ _
          0 _ (by omega)]
        exact getCommentsWithFuel_invariant env cfg p P hstep _ _ _ _ q.1 h2
      · exact h2

/-- Every emitted story or comment id was fetched as a value whose type is
`"story"` or `"comment"`. -/
theorem crawl_emitted_fetched (env : Corpus) (cfg : Config) (p : List HNId)
    (cats : List (String × List Nat)) (hWF : env.ItemsWF)
    (hbs : 0 < cfg.batchSize) :
    ∀ i ∈ emittedItemIds (get_hn_content_with_metadata env cfg cats p),
      ∃ it, env.getItem i = .val it ∧
        (it.itemType = "story" ∨ it.itemType = "comment") := by
  unfold get_hn_content_with_metadata
  refine crawl_invariant env cfg p
    (fun st => ∀ i ∈ emittedItemIds st,
      ∃ it, env.getItem i = .val it ∧
        (it.itemType = "story" ∨ it.itemType = "comment")) ?_ ?_ cats {} ?_
  · intro ids st depth cat _ _ hP i hi
    simp only [emittedItemIds, commentLevelState, List.map_append,
      List.mem_append] at hi
    rcases hi with hi | hi | hi
    · exact hP i (List.mem_append.mpr (Or.inl hi))
    · exact hP i (List.mem_append.mpr (Or.inr hi))
    · rw [List.map_map] at hi
      rw [List.mem_map] at hi
      obtain ⟨c, hc, rfl⟩ := hi
      simp only [levelKept, keptComments, List.mem_filter] at hc
      obtain ⟨hcb, hty⟩ := hc
      obtain ⟨j, _, hv⟩ := mem_fetch_batch hbs hcb
      have hid := itemsWF_id_eq hWF hv
      refine ⟨c, ?_, Or.inr (by simpa using hty)⟩
      show env.getItem (tagComment cat depth c).item.id = Fetch.val c
      simp only [tagComment]
      rw [hid]
      exact hv
  · intro st cat ids _ hP i hi
    simp only [emittedItemIds, categoryLevelState, List.map_append,
      List.mem_append] at hi
    rcases hi with (hi | hi) | hi
    · exact hP i (List.mem_append.mpr (Or.inl hi))
    · rw [List.map_map] at hi
      rw [List.mem_map] at hi
      obtain ⟨c, hc, rfl⟩ := hi
      simp only [categoryKept, keptStories, List.mem_filter] at hc
      obtain ⟨hcb, hty⟩ := hc
      obtain ⟨j, _, hv⟩ := mem_fetch_batch hbs hcb
      have hid := itemsWF_id_eq hWF hv
      refine ⟨c, ?_, Or.inl (by simpa using hty)⟩
      show env.getItem (tagStory cat c).item.id = Fetch.val c
      simp only [tagStory]
      rw [hid]
      exact hv
    · exact hP i (List.mem_append.mpr (Or.inr hi))
  · intro i hi
    simp [emittedItemIds] at hi

/-- The in-run seen set contains exactly the ids of the emitted stories and
comments: an attempted id whose fetch failed or had the wrong type is not in
it. -/
theorem crawl_seen_eq_emitted (env : Corpus) (cfg : Config) (p : List HNId)
    (cats : List (String × List Nat)) :
    ∀ i, i ∈ (get_hn_content_with_metadata env cfg cats p).seenItems ↔
      i ∈ emittedItemIds (get_hn_content_with_metadata env cfg cats p) := by
  unfold get_hn_content_with_metadata
  refine crawl_invariant env cfg p
    (fun st => ∀ i, i ∈ st.seenItems ↔ i ∈ emittedItemIds st) ?_ ?_ cats {} ?_
  · intro ids st depth cat _ _ hP i
    simp only [commentLevelState, emittedItemIds, List.map_append,
      List.mem_append, mem_foldl_addToSet, List.map_map]
    rw [hP i]
    simp only [emittedItemIds, List.mem_append]
    constructor
    · rintro ((h | h) | h)
      · exact Or.inl h
      · exact Or.inr (Or.inl h)
      · refine Or.inr (Or.inr ?_)
        simpa [tagComment, Function.comp] using h
    · rintro (h | h | h)
      · exact Or.inl (Or.inl h)
      · exact Or.inl (Or.inr h)
      · refine Or.inr ?_
        simpa [tagComment, Function.comp] using h
  · intro st cat ids _ hP i
    simp only [categoryLevelState, emittedItemIds, List.map_append,
      List.mem_append, mem_foldl_addToSet, List.map_map]
    rw [hP i]
    simp only [emittedItemIds, List.mem_append]
    constructor
    · rintro ((h | h) | h)
      · exact Or.inl (Or.inl h)
      · exact Or.inr h
      · refine Or.inl (Or.inr ?_)
        simpa [tagStory, Function.comp] using h
    · rintro ((h | h) | h)
      · exact Or.inl (Or.inl h)
      · refine Or.inr ?_
        simpa [tagStory, Function.comp] using h
      · exact Or.inl (Or.inr h)
  · intro i
    simp [emittedItemIds, CrawlState.seenItems]

/-- The corpus for the C6 counterexample: story 1 references the dead id 99
both directly and through comment 5. -/
def envC6 : Corpus :=
  { itemEntries := [
      (1, .val { id := 1, itemType := "story", author := none, kids := [99, 5] }),
      (5, .val { id := 5, itemType := "comment", author := none, kids := [99] })],
    userEntries := [],
    categoryStoryLists := [("topstories", [1])] }

/-- C6 counterexample: id 99 fetches as null at depth 0, is dropped, but is
NOT added to the in-run seen set, so its duplicate reference at depth 1 is
fetched again — the fetch log shows id 99 requested twice. -/
theorem C6_counterexample :
    (get_hn_content_with_metadata envC6 {} [("topstories", [1])] []).fetchLog.count
        (HNId.item 99) = 2 ∧
    99 ∉ (get_hn_content_with_metadata envC6 {} [("topstories", [1])]
        []).seenItems := by
  simp only [← get_hn_content_eq_fuel]
  decide

/-- C6 (amended): an attempted id whose fetch returns null (or an item of a
type other than story/comment) does not make the crawl throw and is excluded
from the output; but its id is NOT added to the in-run seen set — only kept
items are marked seen — so a duplicate reference to it later in the run is
fetched again (and dropped again). -/
theorem C6_failed_ids_amended (env : Corpus) (cfg : Config)
    (cats : List (String × List Nat)) (p : List HNId) (i : Nat)
    (hWF : env.ItemsWF) (hbs : 0 < cfg.batchSize)
    (hbad : ∀ it, env.getItem i = .val it →
      ¬(it.itemType = "story" ∨ it.itemType = "comment")) :
    i ∉ emittedItemIds (get_hn_content_with_metadata env cfg cats p) ∧
    i ∉ (get_hn_content_with_metadata env cfg cats p).seenItems := by
  have hout : i ∉ emittedItemIds (get_hn_content_with_metadata env cfg cats p) := by
    intro hmem
    obtain ⟨it, hv, hty⟩ := crawl_emitted_fetched env cfg p cats hWF hbs i hmem
    exact hbad it hv hty
  exact ⟨hout, fun hmem =>
    hout ((crawl_seen_eq_emitted env cfg p cats i).mp hmem)⟩

/-- Witness for the amended C6 on `envC6`: the dead id 99 is neither emitted
nor marked seen. -/
theorem C6_witness :
    99 ∉ emittedItemIds (get_hn_content_with_metadata envC6 {}
      [("topstories", [1])] []) ∧
    99 ∉ (get_hn_content_with_metadata envC6 {} [("topstories", [1])]
      []).seenItems :=
  C6_failed_ids_amended envC6 {} [("topstories", [1])] [] 99 (by decide)
    (by decide) (fun it h => nomatch h)

/-- The username component of a logged fetch. -/
def userPart : HNId → Option String
  | .user n => some n
  | .item _ => none

/-- The usernames handed to `fetch_batch` over the whole run, in order. -/
def userAttempts (st : CrawlState) : List String :=
  st.fetchLog.filterMap userPart

theorem filterMap_userPart_items (l : List Nat) :
    (l.map HNId.item).filterMap userPart = [] := by
  induction l with
  | nil => rfl
  | cons x xs ih => simp [userPart, ih]

theorem filterMap_userPart_users (l : List String) :
    (l.map HNId.user).filterMap userPart = l := by
  induction l with
  | nil => rfl
  | cons x xs ih => simp [userPart, ih]

/-- Names collected by `newNames` come from the list and were not already
seen. -/
theorem newNames_mem : ∀ (seen l : List String) (a : String),
    a ∈ newNames seen l → a ∈ l ∧ a ∉ seen := by
  intro seen l
  induction l generalizing seen with
  | nil => intro a h; cases h
  | cons b rest ih =>
    intro a h
    rw [newNames] at h
    by_cases hb : b ∈ seen
    · rw [if_pos hb] at h
      obtain ⟨h1, h2⟩ := ih seen a h
      exact ⟨List.mem_cons_of_mem b h1, h2⟩
    · rw [if_neg hb] at h
      rcases List.mem_cons.mp h with rfl | h
      · exact ⟨List.mem_cons_self a rest, hb⟩
      · obtain ⟨h1, h2⟩ := ih (addToSet seen b) a h
        refine ⟨List.mem_cons_of_mem b h1, fun hs => h2 ?_⟩
        exact mem_addToSet.mpr (Or.inl hs)

/-- `newNames` never collects the same name twice. -/
theorem newNames_nodup : ∀ (seen l : List String), (newNames seen l).Nodup := by
  intro seen l
  induction l generalizing seen with
  | nil => exact List.nodup_nil
  | cons b rest ih =>
    rw [newNames]
    by_cases hb : b ∈ seen
    · rw [if_pos hb]
      exact ih seen
    · rw [if_neg hb]
      refine List.nodup_cons.mpr ⟨fun hmem => ?_, ih (addToSet seen b)⟩
      have := (newNames_mem (addToSet seen b) rest b hmem).2
      exact this (mem_addToSet.mpr (Or.inr rfl))

/-- Attempted usernames are pairwise distinct and each is in the seen-users
set from the moment it is collected. -/
theorem crawl_user_attempts (env : Corpus) (cfg : Config) (p : List HNId)
    (cats : List (String × List Nat)) :
    (userAttempts (get_hn_content_with_metadata env cfg cats p)).Nodup ∧
    ∀ m ∈ userAttempts (get_hn_content_with_metadata env cfg cats p),
      m ∈ (get_hn_content_with_metadata env cfg cats p).seenUsers := by
  unfold get_hn_content_with_metadata
  refine crawl_invariant env cfg p
    (fun st => (userAttempts st).Nodup ∧
      ∀ m ∈ userAttempts st, m ∈ st.seenUsers) ?_ ?_ cats {} ?_
  · intro ids st depth cat _ _ hP
    obtain ⟨hnd, hsub⟩ := hP
    have hatt : userAttempts (commentLevelState env cfg ids st p depth cat) =
        userAttempts st ++
          (if newNames st.seenUsers (authorsOf (levelKept env cfg st p ids)) = []
            then []
            else newNames st.seenUsers (authorsOf (levelKept env cfg st p ids))) := by
      simp only [userAttempts, commentLevelState, List.filterMap_append,
        filterMap_userPart_items, List.append_nil]
      split
      · simp
      · rw [filterMap_userPart_users]
    constructor
    · rw [hatt]
      split
      · simpa using hnd
      · refine List.Nodup.append hnd (newNames_nodup _ _) ?_
        intro a ha hmem
        exact (newNames_mem _ _ a hmem).2 (hsub a ha)
    · intro m hm
      rw [hatt] at hm
      have hseen : (commentLevelState env cfg ids st p depth cat).seenUsers =
          (authorsOf (levelKept env cfg st p ids)).foldl addToSet st.seenUsers :=
        rfl
      rw [hseen, mem_foldl_addToSet]
      rcases List.mem_append.mp hm with hm | hm
      · exact Or.inl (hsub m hm)
      · split at hm
        · cases hm
        · exact Or.inr (newNames_mem _ _ m hm).1
  · intro st cat ids _ hP
    obtain ⟨hnd, hsub⟩ := hP
    have hatt : userAttempts (categoryLevelState env cfg p st cat ids) =
        userAttempts st ++
          (if newNames st.seenUsers (authorsOf (categoryKept env cfg p ids)) = []
            then []
            else newNames st.seenUsers (authorsOf (categoryKept env cfg p ids))) := by
      simp only [userAttempts, categoryLevelState, List.filterMap_append,
        filterMap_userPart_items, List.append_nil]
      split
      · simp
      · rw [filterMap_userPart_users]
    constructor
    · rw [hatt]
      split
      · simpa using hnd
      · refine List.Nodup.append hnd (newNames_nodup _ _) ?_
        intro a ha hmem
        exact (newNames_mem _ _ a hmem).2 (hsub a ha)
    · intro m hm
      rw [hatt] at hm
      have hseen : (categoryLevelState env cfg p st cat ids).seenUsers =
          (authorsOf (categoryKept env cfg p ids)).foldl addToSet st.seenUsers :=
        rfl
      rw [hseen, mem_foldl_addToSet]
      rcases List.mem_append.mp hm with hm | hm
      · exact Or.inl (hsub m hm)
      · split at hm
        · cases hm
        · exact Or.inr (newNames_mem _ _ m hm).1
  · exact ⟨List.nodup_nil, by intro m hm; cases hm⟩

/-- Every emitted user profile was fetched as a value under its own
username. -/
theorem crawl_users_fetched (env : Corpus) (cfg : Config) (p : List HNId)
    (cats : List (String × List Nat)) (hWFu : env.UsersWF)
    (hbs : 0 < cfg.batchSize) :
    ∀ tu ∈ (get_hn_content_with_metadata env cfg cats p).users,
      env.getUser tu.profile.id = .val tu.profile := by
  unfold get_hn_content_with_metadata
  refine crawl_invariant env cfg p
    (fun st => ∀ tu ∈ st.users,
      env.getUser tu.profile.id = .val tu.profile) ?_ ?_ cats {} ?_
  · intro ids st depth cat _ _ hP tu htu
    have hus : (commentLevelState env cfg ids st p depth cat).users =
        st.users ++ (if newNames st.seenUsers
            (authorsOf (levelKept env cfg st p ids)) = [] then []
          else (fetch_batch cfg.batchSize
              (newNames st.seenUsers (authorsOf (levelKept env cfg st p ids)))
              env.getUser).map
            (fun u => { profile := u, hnContext := "commenter_on_" ++ cat })) :=
      rfl
    rw [hus] at htu
    rcases List.mem_append.mp htu with h | h
    · exact hP tu h
    · split at h
      · cases h
      · obtain ⟨u, hu, rfl⟩ := List.mem_map.mp h
        obtain ⟨n, _, hv⟩ := mem_fetch_batch hbs hu
        have := usersWF_id_eq hWFu hv
        show env.getUser u.id = Fetch.val u
        rw [this]
        exact hv
  · intro st cat ids _ hP tu htu
    have hus : (categoryLevelState env cfg p st cat ids).users =
        st.users ++ (if newNames st.seenUsers
            (authorsOf (categoryKept env cfg p ids)) = [] then []
          else (fetch_batch cfg.batchSize
              (newNames st.seenUsers (authorsOf (categoryKept env cfg p ids)))
              env.getUser).map
            (fun u => { profile := u,
                        hnContext := "author_of_" ++ cat ++ "_story" })) :=
      rfl
    rw [hus] at htu
    rcases List.mem_append.mp htu with h | h
    · exact hP tu h
    · split at h
      · cases h
      · obtain ⟨u, hu, rfl⟩ := List.mem_map.mp h
        obtain ⟨n, _, hv⟩ := mem_fetch_batch hbs hu
        have := usersWF_id_eq hWFu hv
        show env.getUser u.id = Fetch.val u
        rw [this]
        exact hv
  · intro tu htu
    cases htu

/-- C10: each username's profile is fetched at most once per run — usernames
are added to the in-run seen-users set at collection time, before their
profiles are fetched — and a username whose profile fetch raises or returns
null is never emitted in the users list (and, the attempts being pairwise
distinct, never re-attempted). -/
theorem C10_user_fetch_once (env : Corpus) (cfg : Config)
    (cats : List (String × List Nat)) (p : List HNId) (n : String)
    (hWFu : env.UsersWF) (hbs : 0 < cfg.batchSize) :
    (userAttempts (get_hn_content_with_metadata env cfg cats p)).Nodup ∧
    (∀ m ∈ userAttempts (get_hn_content_with_metadata env cfg cats p),
      m ∈ (get_hn_content_with_metadata env cfg cats p).seenUsers) ∧
    (env.getUser n = .exn ∨ env.getUser n = .null →
      n ∉ (get_hn_content_with_metadata env cfg cats p).users.map
        (fun tu => tu.profile.id)) := by
  obtain ⟨h1, h2⟩ := crawl_user_attempts env cfg p cats
  refine ⟨h1, h2, fun hfail hmem => ?_⟩
  obtain ⟨tu, htu, rfl⟩ := List.mem_map.mp hmem
  have := crawl_users_fetched env cfg p cats hWFu hbs tu htu
  rcases hfail with h | h <;> rw [this] at h <;> cases h

/-- Witness for C10 on `envA`: author `carol` (comment 6) has no profile in
the corpus; the attempts are pairwise distinct and carol is absent from the
emitted users. -/
theorem C10_witness :
    (userAttempts (get_hn_content_with_metadata envA {}
      [("topstories", [1]), ("newstories", [2])] [])).Nodup ∧
    "carol" ∉ (get_hn_content_with_metadata envA {}
      [("topstories", [1]), ("newstories", [2])] []).users.map
        (fun tu => tu.profile.id) := by
  obtain ⟨h1, _, h3⟩ := C10_user_fetch_once envA {}
    [("topstories", [1]), ("newstories", [2])] [] "carol" (by decide) (by decide)
  exact ⟨h1, h3 (Or.inr rfl)⟩

/-- `new_story_ids_by_category`: the listed roots of every category filtered
against the loaded ledger. -/
def runNewByCat (env : Corpus) (cfg : Config) (p : List HNId) :
    List (String × List Nat) :=
  (env.getAllStories cfg.storiesPerCategory).map
    (fun q => (q.1, q.2.filter (fun sid => HNId.item sid ∉ p)))

/-- `total_new_stories`. -/
def runTotalNew (env : Corpus) (cfg : Config) (p : List HNId) : Nat :=
  ((runNewByCat env cfg p).map (fun q => q.2.length)).sum

/-- The run unfolded: once the ledger loads, the run either short-circuits
(zero new roots: nothing fetched, nothing written) or crawls, writes the
snapshot, and saves the merged ledger. -/
theorem fetch_hackernews_data_eq (env : Corpus) (cfg : Config)
    (lf : LedgerFile) (p : List HNId) (hl : load_processed_ids lf = .ok p) :
    fetch_hackernews_data env cfg lf =
      (if runTotalNew env cfg p = 0 then
        .ok { crawl := {}, totalNewStories := 0,
              snapshotWritten := false, savedLedger := none }
      else
        .ok { crawl := get_hn_content_with_metadata env cfg
                (runNewByCat env cfg p) p,
              totalNewStories := runTotalNew env cfg p,
              snapshotWritten := true,
              savedLedger := some
                (((get_hn_content_with_metadata env cfg (runNewByCat env cfg p)
                    p).emittedIds.filter (fun i => i.truthy)).foldl
                  addToSet p) }) := by
  unfold fetch_hackernews_data
  rw [hl]
  rfl

/-- The corpus for the C8 counterexample: the only root id's fetch raises. -/
def envC8 : Corpus :=
  { itemEntries := [(1, .exn)],
    userEntries := [],
    categoryStoryLists := [("topstories", [1])] }

/-- C8 counterexample: with one new root whose fetch fails, the crawl result
is completely empty, yet the snapshot is written and the ledger file is
rewritten (`save_processed_ids` is called with the unchanged id set) — the
writes are not skipped. -/
theorem C8_counterexample :
    fetch_hackernews_data envC8 {} .absent =
      .ok { crawl := { fetchLog := [HNId.item 1] }, totalNewStories := 1,
            snapshotWritten := true, savedLedger := some [] } := by
  rw [fetch_hackernews_data_eq envC8 {} .absent [] rfl]
  rw [if_neg (by decide)]
  simp only [← get_hn_content_eq_fuel, Except.ok.injEq]
  decide

/-- C8 (amended): the snapshot and ledger writes are skipped exactly when no
new root story ids exist after the ledger filter (then nothing at all is
fetched); if any new root exists the snapshot is written unconditionally,
even when every fetch failed and the result is empty — in that case the
ledger is rewritten with contents identical to what was loaded. -/
theorem C8_writes_amended (env : Corpus) (cfg : Config) (lf : LedgerFile)
    (p : List HNId) (o : RunOutcome) (hl : load_processed_ids lf = .ok p)
    (hrun : fetch_hackernews_data env cfg lf = .ok o) :
    (o.snapshotWritten = false ↔ runTotalNew env cfg p = 0) ∧
    (runTotalNew env cfg p = 0 → o.savedLedger = none ∧ o.crawl = {}) ∧
    (runTotalNew env cfg p ≠ 0 →
      o.snapshotWritten = true ∧
      o.savedLedger = some
        ((o.crawl.emittedIds.filter (fun i => i.truthy)).foldl addToSet p)) ∧
    (runTotalNew env cfg p ≠ 0 → o.crawl.emittedIds = [] →
      o.savedLedger = some p) := by
  rw [fetch_hackernews_data_eq env cfg lf p hl] at hrun
  by_cases h0 : runTotalNew env cfg p = 0
  · rw [if_pos h0] at hrun
    cases hrun
    refine ⟨by simp [h0], fun _ => ⟨rfl, rfl⟩, fun hc => absurd h0 hc,
      fun hc => absurd h0 hc⟩
  · rw [if_neg h0] at hrun
    cases hrun
    refine ⟨by simp [h0], fun hc => absurd hc h0, fun _ => ⟨rfl, rfl⟩,
      fun _ hemp => ?_⟩
    simp only [hemp]
    rfl

/-- Witness for the amended C8 on `envC8`: the failing run writes the
snapshot and re-saves the loaded (empty) ledger. -/
theorem C8_witness :
    ({ crawl := { fetchLog := [HNId.item 1] }, totalNewStories := 1,
       snapshotWritten := true,
       savedLedger := some [] } : RunOutcome).snapshotWritten = true ∧
    ({ crawl := { fetchLog := [HNId.item 1] }, totalNewStories := 1,
       snapshotWritten := true,
       savedLedger := some [] } : RunOutcome).savedLedger = some [] := by
  have hrun : fetch_hackernews_data envC8 {} .absent =
      .ok { crawl := { fetchLog := [HNId.item 1] }, totalNewStories := 1,
            snapshotWritten := true, savedLedger := some [] } := by
    rw [fetch_hackernews_data_eq envC8 {} .absent [] rfl]
    rw [if_neg (by decide)]
    simp only [← get_hn_content_eq_fuel, Except.ok.injEq]
    decide
  obtain ⟨h1, h2, h3, h4⟩ := C8_writes_amended envC8 {} .absent [] _ rfl hrun
  exact ⟨(h3 (by decide)).1, h4 (by decide) (by decide)⟩

/-- The comment recursion never touches the `stories` list. -/
theorem get_comments_stories_eq (env : Corpus) (cfg : Config) (ids : List Nat)
    (st : CrawlState) (p : List HNId) (depth : Nat) (cat : String) :
    (get_comments_with_metadata env cfg ids st p depth cat).stories =
      st.stories := by
  rw [← get_comments_with_metadata_eq_fuel env cfg (cfg.maxCommentDepth - depth)
    ids st p depth cat le_rfl]
  exact getCommentsWithFuel_invariant env cfg p
    (fun s => s.stories = st.stories)
    (fun ids' s d c _ _ h => h) _ ids st depth cat rfl

/-- One category appends exactly its kept stories (tagged) to the `stories`
list. -/
theorem processCategory_stories (env : Corpus) (cfg : Config) (p : List HNId)
    (st : CrawlState) (cat : String) (ids : List Nat) :
    (processCategory env cfg p st cat ids).stories =
      st.stories ++ (categoryKept env cfg p ids).map (tagStory cat) := by
  by_cases hnew : categoryNewIds p ids = []
  · rw [processCategory_of_newIds_nil env cfg p st cat ids hnew]
    have hk : categoryKept env cfg p ids = [] := by
      unfold categoryKept
      rw [hnew]
      rfl
    rw [hk]
    simp
  · rw [processCategory_eq env cfg p st cat ids hnew]
    split
    · rw [get_comments_stories_eq]
      rfl
    · rfl

/-- Emitted stories survive the remaining category iterations. -/
theorem foldl_stories_mono (env : Corpus) (cfg : Config) (p : List HNId) :
    ∀ (cats : List (String × List Nat)) (st : CrawlState) (a : TaggedStory),
      a ∈ st.stories →
      a ∈ (cats.foldl (fun st q => processCategory env cfg p st q.1 q.2)
        st).stories := by
  intro cats
  induction cats with
  | nil => intro st a h; exact h
  | cons q rest ih =>
    intro st a h
    rw [List.foldl_cons]
    apply ih
    rw [processCategory_stories]
    exact List.mem_append.mpr (Or.inl h)

/-- Completeness of the story pass: a listed root id not in the ledger whose
fetch succeeds with type `"story"` is emitted. -/
theorem foldl_stories_complete (env : Corpus) (cfg : Config) (p' : List HNId)
    (hWF : env.ItemsWF) (hbs : 0 < cfg.batchSize) :
    ∀ (cats : List (String × List Nat)) (st : CrawlState)
      (q : String × List Nat) (r : Nat) (it : Item),
      q ∈ cats → r ∈ q.2 → HNId.item r ∉ p' →
      env.getItem r = .val it → it.itemType = "story" →
      ∃ ts ∈ (cats.foldl (fun st q' => processCategory env cfg p' st q'.1 q'.2)
          st).stories, ts.item.id = r := by
  intro cats
  induction cats with
  | nil => intro st q r it hq; cases hq
  | cons q0 rest ih =>
    intro st q r it hq hr hnp hv hty
    rw [List.foldl_cons]
    rcases List.mem_cons.mp hq with rfl | hq
    · have hmem : tagStory q.1 it ∈
          (processCategory env cfg p' st q.1 q.2).stories := by
        rw [processCategory_stories]
        refine List.mem_append.mpr (Or.inr ?_)
        refine List.mem_map.mpr ⟨it, ?_, rfl⟩
        unfold categoryKept keptStories
        rw [List.mem_filter]
        constructor
        · rw [fetch_batch_eq_filterMap _ _ _ hbs]
          refine List.mem_filterMap.mpr ⟨r, ?_, ?_⟩
          · unfold categoryNewIds
            rw [List.mem_filter]
            exact ⟨hr, by simpa using hnp⟩
          · rw [hv]
            rfl
        · simpa using hty
      refine ⟨tagStory q.1 it, foldl_stories_mono env cfg p' rest _ _ hmem, ?_⟩
      show it.id = r
      exact itemsWF_id_eq hWF hv
    · exact ih _ q r it hq hr hnp hv hty

/-- A category that keeps no stories changes none of the output lists. -/
theorem processCategory_kept_nil (env : Corpus) (cfg : Config) (p : List HNId)
    (st : CrawlState) (cat : String) (ids : List Nat)
    (hk : categoryKept env cfg p ids = []) :
    (processCategory env cfg p st cat ids).stories = st.stories ∧
    (processCategory env cfg p st cat ids).comments = st.comments ∧
    (processCategory env cfg p st cat ids).users = st.users := by
  by_cases hnew : categoryNewIds p ids = []
  · rw [processCategory_of_newIds_nil env cfg p st cat ids hnew]
    exact ⟨rfl, rfl, rfl⟩
  · rw [processCategory_eq env cfg p st cat ids hnew]
    have hcc : categoryCommentIds env cfg p ids = [] := by
      unfold categoryCommentIds
      rw [hk]
      rfl
    rw [if_neg (by simp [hcc])]
    refine ⟨?_, ?_, ?_⟩ <;> simp [categoryLevelState, hk, authorsOf, newNames]

/-- If every category keeps no stories, the whole crawl emits nothing. -/
theorem crawl_empty_of_kept_nil (env : Corpus) (cfg : Config) (p' : List HNId)
    (cats : List (String × List Nat))
    (hkept : ∀ q ∈ cats, categoryKept env cfg p' q.2 = []) :
    (get_hn_content_with_metadata env cfg cats p').stories = [] ∧
    (get_hn_content_with_metadata env cfg cats p').comments = [] ∧
    (get_hn_content_with_metadata env cfg cats p').users = [] := by
  unfold get_hn_content_with_metadata
  suffices h : ∀ (cats : List (String × List Nat)) (st : CrawlState),
      (∀ q ∈ cats, categoryKept env cfg p' q.2 = []) →
      (cats.foldl (fun st q => processCategory env cfg p' st q.1 q.2)
          st).stories = st.stories ∧
      (cats.foldl (fun st q => processCategory env cfg p' st q.1 q.2)
          st).comments = st.comments ∧
      (cats.foldl (fun st q => processCategory env cfg p' st q.1 q.2)
          st).users = st.users by
    exact h cats {} hkept
  intro cats2
  induction cats2 with
  | nil => intro st _; exact ⟨rfl, rfl, rfl⟩
  | cons q rest ih =>
    intro st hk
    rw [List.foldl_cons]
    obtain ⟨h1, h2, h3⟩ :=
      ih (processCategory env cfg p' st q.1 q.2)
        (fun q' hq' => hk q' (List.mem_cons_of_mem q hq'))
    obtain ⟨g1, g2, g3⟩ :=
      processCategory_kept_nil env cfg p' st q.1 q.2 (hk q (List.mem_cons_self q rest))
    exact ⟨h1.trans g1, h2.trans g2, h3.trans g3⟩

/-- After a full run merges its emitted ids into the ledger, a second pass
over the unchanged corpus keeps no story in any category: every surviving
root either failed to fetch or is not a story, exactly as in the first
run. -/
theorem run2_kept_nil (env : Corpus) (cfg : Config) (hWF : env.ItemsWF)
    (hbs : 0 < cfg.batchSize)
    (hpos : ∀ q ∈ env.categoryStoryLists, (0 : Nat) ∉ q.2)
    (p L : List HNId)
    (hL : L = ((get_hn_content_with_metadata env cfg (runNewByCat env cfg p)
        p).emittedIds.filter (fun i => i.truthy)).foldl addToSet p) :
    ∀ q ∈ runNewByCat env cfg L, categoryKept env cfg L q.2 = [] := by
  intro q hq
  by_contra hne
  obtain ⟨it, hit⟩ := List.exists_mem_of_ne_nil _ hne
  unfold categoryKept keptStories at hit
  rw [List.mem_filter] at hit
  obtain ⟨hitb, hty⟩ := hit
  rw [fetch_batch_eq_filterMap _ _ _ hbs] at hitb
  rw [List.mem_filterMap] at hitb
  obtain ⟨r, hr, hvr⟩ := hitb
  have hv : env.getItem r = .val it := by
    cases hgi : env.getItem r <;> rw [hgi] at hvr <;>
      simp [Fetch.toOption] at hvr
    rw [hvr]
  unfold categoryNewIds at hr
  rw [List.mem_filter] at hr
  obtain ⟨hrq, hrL0⟩ := hr
  have hrL : HNId.item r ∉ L := by simpa using hrL0
  unfold runNewByCat Corpus.getAllStories at hq
  rw [List.map_map, List.mem_map] at hq
  obtain ⟨cl, hcl, hqeq⟩ := hq
  rw [← hqeq] at hrq
  simp only [Function.comp] at hrq
  rw [List.mem_filter] at hrq
  obtain ⟨hrbase, _⟩ := hrq
  have hrcl : r ∈ cl.2 := List.take_subset _ _ hrbase
  have hr0 : r ≠ 0 := fun h => hpos cl hcl (h ▸ hrcl)
  have hrp : HNId.item r ∉ p := by
    intro hin
    apply hrL
    rw [hL, mem_foldl_addToSet]
    exact Or.inl hin
  have hq1 : ((cl.1, (cl.2.take cfg.storiesPerCategory).filter
      (fun sid => HNId.item sid ∉ p)) : String × List Nat) ∈
      runNewByCat env cfg p := by
    unfold runNewByCat Corpus.getAllStories
    rw [List.map_map, List.mem_map]
    exact ⟨cl, hcl, rfl⟩
  have hrq1 : r ∈ (cl.2.take cfg.storiesPerCategory).filter
      (fun sid => HNId.item sid ∉ p) := by
    rw [List.mem_filter]
    exact ⟨hrbase, by simpa using hrp⟩
  obtain ⟨ts, hts, htsid⟩ := foldl_stories_complete env cfg p hWF hbs
    (runNewByCat env cfg p) {} _ r it hq1 hrq1 hrp hv (by simpa using hty)
  apply hrL
  rw [hL, mem_foldl_addToSet]
  right
  rw [List.mem_filter]
  constructor
  · unfold CrawlState.emittedIds get_hn_content_with_metadata
    refine List.mem_append.mpr (Or.inl (List.mem_append.mpr (Or.inl ?_)))
    refine List.mem_map.mpr ⟨ts, hts, ?_⟩
    show HNId.item ts.item.id = HNId.item r
    rw [htsid]
  · simpa [HNId.truthy] using hr0

/-- The outcome of a run that found nothing new: nothing fetched, nothing
written. -/
def emptyRunOutcome : RunOutcome :=
  { crawl := {}, totalNewStories := 0, snapshotWritten := false,
    savedLedger := none }

/-- C2 (amended): running the crawl twice with an unchanged corpus yields
zero new items on the second run: the second run emits no stories, comments,
or users.  However, the second run is not necessarily fetch-free: a root id
that was fetched in the first run but dropped (failed fetch, or an item whose
type is not `"story"`, such as a job posting) is never merged into the
ledger, so the second run counts it as new and re-fetches it — and drops it
again. -/
theorem C2_rerun_amended (env : Corpus) (cfg : Config) (lf : LedgerFile)
    (p : List HNId) (o1 : RunOutcome)
    (hWF : env.ItemsWF) (hbs : 0 < cfg.batchSize)
    (hpos : ∀ q ∈ env.categoryStoryLists, (0 : Nat) ∉ q.2)
    (hl : load_processed_ids lf = .ok p)
    (hrun1 : fetch_hackernews_data env cfg lf = .ok o1) :
    ∃ o2, fetch_hackernews_data env cfg (ledgerAfter lf o1) = .ok o2 ∧
      o2.crawl.stories = [] ∧ o2.crawl.comments = [] ∧ o2.crawl.users = [] := by
  rw [fetch_hackernews_data_eq env cfg lf p hl] at hrun1
  by_cases h0 : runTotalNew env cfg p = 0
  · rw [if_pos h0] at hrun1
    cases hrun1
    refine ⟨emptyRunOutcome, ?_, rfl, rfl, rfl⟩
    show fetch_hackernews_data env cfg lf = _
    rw [fetch_hackernews_data_eq env cfg lf p hl, if_pos h0]
    rfl
  · rw [if_neg h0] at hrun1
    cases hrun1
    have hload2 : load_processed_ids (ledgerAfter lf
        { crawl := get_hn_content_with_metadata env cfg (runNewByCat env cfg p) p,
          totalNewStories := runTotalNew env cfg p,
          snapshotWritten := true,
          savedLedger := some (((get_hn_content_with_metadata env cfg
              (runNewByCat env cfg p) p).emittedIds.filter
            (fun i => i.truthy)).foldl addToSet p) }) =
        .ok (((get_hn_content_with_metadata env cfg
            (runNewByCat env cfg p) p).emittedIds.filter
          (fun i => i.truthy)).foldl addToSet p) := rfl
    rw [fetch_hackernews_data_eq env cfg _ _ hload2]
    by_cases h2 : runTotalNew env cfg (((get_hn_content_with_metadata env cfg
        (runNewByCat env cfg p) p).emittedIds.filter
          (fun i => i.truthy)).foldl addToSet p) = 0
    · rw [if_pos h2]
      exact ⟨_, rfl, rfl, rfl, rfl⟩
    · rw [if_neg h2]
      obtain ⟨hs, hc, hu⟩ := crawl_empty_of_kept_nil env cfg _ _
        (run2_kept_nil env cfg hWF hbs hpos p _ rfl)
      exact ⟨_, rfl, hs, hc, hu⟩

/-- The corpus for the C2 counterexample: the only root is a job posting. -/
def envC2 : Corpus :=
  { itemEntries := [
      (2, .val { id := 2, itemType := "job", author := none, kids := [] })],
    userEntries := [],
    categoryStoryLists := [("jobstories", [2])] }

/-- Both runs over `envC2` produce this outcome: nothing kept, the snapshot
written, the ledger saved unchanged, and id 2 fetched. -/
def c2Outcome : RunOutcome :=
  { crawl := { fetchLog := [HNId.item 2] }, totalNewStories := 1,
    snapshotWritten := true, savedLedger := some [] }

/-- C2 counterexample: with a single root that is a job posting, the first
run emits nothing and saves an unchanged ledger, and the second run — far
from returning an empty list without fetching any items — again counts the
root as new (`total_new_stories = 1`) and fetches it (nonempty fetch
log). -/
theorem C2_counterexample :
    fetch_hackernews_data envC2 {} .absent = .ok c2Outcome ∧
    fetch_hackernews_data envC2 {} (ledgerAfter .absent c2Outcome) =
      .ok c2Outcome ∧
    c2Outcome.totalNewStories ≠ 0 ∧
    c2Outcome.crawl.fetchLog ≠ [] := by
  have h1 : fetch_hackernews_data envC2 {} .absent = .ok c2Outcome := by
    rw [fetch_hackernews_data_eq envC2 {} .absent [] rfl]
    rw [if_neg (by decide)]
    simp only [← get_hn_content_eq_fuel, Except.ok.injEq]
    decide
  have h2 : fetch_hackernews_data envC2 {} (.valid []) = .ok c2Outcome := by
    rw [fetch_hackernews_data_eq envC2 {} (.valid []) [] rfl]
    rw [if_neg (by decide)]
    simp only [← get_hn_content_eq_fuel, Except.ok.injEq]
    decide
  exact ⟨h1, h2, by decide, by decide⟩

/-- Witness for the amended C2 on `envC2`: the second run emits no stories,
comments, or users. -/
theorem C2_witness :
    ∃ o2, fetch_hackernews_data envC2 {} (ledgerAfter .absent c2Outcome) =
        .ok o2 ∧
      o2.crawl.stories = [] ∧ o2.crawl.comments = [] ∧ o2.crawl.users = [] := by
  have hrun1 : fetch_hackernews_data envC2 {} .absent = .ok c2Outcome := by
    rw [fetch_hackernews_data_eq envC2 {} .absent [] rfl]
    rw [if_neg (by decide)]
    simp only [← get_hn_content_eq_fuel, Except.ok.injEq]
    decide
  exact C2_rerun_amended envC2 {} .absent [] c2Outcome (by decide) (by decide)
    (by decide) rfl hrun1

/-- The child ids a stored fetch outcome exposes. -/
def fetchKids : Fetch Item → List Nat
  | .val it => it.kids
  | _ => []

/-- Tree-likeness, part 1: every stored item's child-id list has no
duplicates. -/
def Corpus.KidsNodup (env : Corpus) : Prop :=
  ∀ pr ∈ env.itemEntries, (fetchKids pr.2).Nodup

/-- Tree-likeness, part 2: items stored under distinct ids have disjoint
child-id lists (each comment has a unique parent). -/
def Corpus.KidsDisjoint (env : Corpus) : Prop :=
  ∀ pr ∈ env.itemEntries, ∀ pr2 ∈ env.itemEntries, pr.1 ≠ pr2.1 →
    ∀ k ∈ fetchKids pr.2, k ∉ fetchKids pr2.2

instance (env : Corpus) : Decidable env.KidsNodup := by
  unfold Corpus.KidsNodup
  infer_instance

instance (env : Corpus) : Decidable env.KidsDisjoint := by
  unfold Corpus.KidsDisjoint
  infer_instance

theorem kidsNodup_of_getItem {env : Corpus} (h : env.KidsNodup) {i : Nat}
    {it : Item} (hv : env.getItem i = .val it) : it.kids.Nodup := by
  unfold Corpus.getItem at hv
  cases hl : env.itemEntries.lookup i with
  | none => rw [hl] at hv; cases hv
  | some f =>
    rw [hl] at hv
    simp only [Option.getD_some] at hv
    subst hv
    simpa [fetchKids] using h (i, .val it) (lookup_mem hl)

theorem kidsDisjoint_of_getItem {env : Corpus} (h : env.KidsDisjoint)
    {i j : Nat} {it it2 : Item} (hv : env.getItem i = .val it)
    (hv2 : env.getItem j = .val it2) (hij : i ≠ j) :
    ∀ k ∈ it.kids, k ∉ it2.kids := by
  unfold Corpus.getItem at hv hv2
  cases hl : env.itemEntries.lookup i with
  | none => rw [hl] at hv; cases hv
  | some f =>
    rw [hl] at hv
    simp only [Option.getD_some] at hv
    subst hv
    cases hl2 : env.itemEntries.lookup j with
    | none => rw [hl2] at hv2; cases hv2
    | some f2 =>
      rw [hl2] at hv2
      simp only [Option.getD_some] at hv2
      subst hv2
      simpa [fetchKids] using
        h (i, .val it) (lookup_mem hl) (j, .val it2) (lookup_mem hl2) hij

/-- A batch of items fetched from duplicate-free ids has duplicate-free item
ids (each item carries the id it was requested under). -/
theorem fetch_items_ids_nodup (env : Corpus) (hWF : env.ItemsWF) (bs : Nat)
    (hbs : 0 < bs) (l : List Nat) (hl : l.Nodup) :
    ((fetch_batch bs l env.getItem).map Item.id).Nodup := by
  rw [fetch_batch_eq_filterMap _ _ _ hbs, List.map_filterMap]
  refine List.Nodup.filterMap ?_ hl
  intro a a' b hb hb'
  have key : ∀ x y : Nat, y ∈ ((env.getItem x).toOption.map Item.id) → y = x := by
    intro x y hy
    cases hgi : env.getItem x <;> rw [hgi] at hy <;>
      simp [Fetch.toOption] at hy
    rw [← hy, itemsWF_id_eq hWF hgi]
  exact (key a b hb).symm.trans (key a' b hb')

/-- A batch of profiles fetched from duplicate-free usernames has
duplicate-free profile ids. -/
theorem fetch_users_ids_nodup (env : Corpus) (hWFu : env.UsersWF) (bs : Nat)
    (hbs : 0 < bs) (l : List String) (hl : l.Nodup) :
    ((fetch_batch bs l env.getUser).map UserProf.id).Nodup := by
  rw [fetch_batch_eq_filterMap _ _ _ hbs, List.map_filterMap]
  refine List.Nodup.filterMap ?_ hl
  intro a a' b hb hb'
  have key : ∀ x y, y ∈ ((env.getUser x).toOption.map UserProf.id) → y = x := by
    intro x y hy
    cases hgi : env.getUser x <;> rw [hgi] at hy <;>
      simp [Fetch.toOption] at hy
    rw [← hy, usersWF_id_eq hWFu hgi]
  exact (key a b hb).symm.trans (key a' b hb')

/-- Concatenating per-item slices of the child lists of items with pairwise
distinct ids yields a duplicate-free list, in a tree-like corpus. -/
theorem flatten_contributions_nodup (env : Corpus) (hKN : env.KidsNodup)
    (hKD : env.KidsDisjoint) (g : Item → List Nat)
    (hg : ∀ c, (g c).Sublist c.kids) :
    ∀ B : List Item, (B.map Item.id).Nodup →
      (∀ c ∈ B, env.getItem c.id = .val c) →
      ((B.map g).flatten).Nodup := by
  intro B
  induction B with
  | nil => intro _ _; simp
  | cons c rest ih =>
    intro hnd hval
    rw [List.map_cons, List.flatten_cons]
    rw [List.map_cons, List.nodup_cons] at hnd
    obtain ⟨hcid, hndr⟩ := hnd
    refine List.Nodup.append ?_ (ih hndr (fun c' hc' => hval c'
      (List.mem_cons_of_mem c hc'))) ?_
    · exact ((hg c).nodup (kidsNodup_of_getItem hKN
        (hval c (List.mem_cons_self c rest))))
    · intro k hk hk2
      rw [List.mem_flatten] at hk2
      obtain ⟨l2, hl2, hkl2⟩ := hk2
      rw [List.mem_map] at hl2
      obtain ⟨c', hc', rfl⟩ := hl2
      have hne : c.id ≠ c'.id := by
        intro he
        apply hcid
        rw [he, List.mem_map]
        exact ⟨c', hc', rfl⟩
      exact kidsDisjoint_of_getItem hKD
        (hval c (List.mem_cons_self c rest))
        (hval c' (List.mem_cons_of_mem c hc')) hne k
        ((hg c).subset hk) ((hg c').subset hkl2)

/-- The invariant behind the no-duplicate claim: the emitted item ids and
user ids are duplicate-free, everything emitted is marked in the matching
seen set, and every emitted story/comment was fetched under its own id with
the matching type. -/
def C1Inv (env : Corpus) (st : CrawlState) : Prop :=
  (emittedItemIds st).Nodup ∧
  (st.users.map (fun tu => tu.profile.id)).Nodup ∧
  (∀ i ∈ emittedItemIds st, i ∈ st.seenItems) ∧
  (∀ tu ∈ st.users, tu.profile.id ∈ st.seenUsers) ∧
  (∀ ts ∈ st.stories, env.getItem ts.item.id = .val ts.item ∧
    ts.item.itemType = "story") ∧
  (∀ tc ∈ st.comments, env.getItem tc.item.id = .val tc.item ∧
    tc.item.itemType = "comment")

theorem levelNewIds_nodup (st : CrawlState) (p : List HNId) (ids : List Nat)
    (h : ids.Nodup) : (levelNewIds st p ids).Nodup :=
  h.filter _

theorem levelNewIds_not_seen {st : CrawlState} {p : List HNId} {ids : List Nat}
    {i : Nat} (h : i ∈ levelNewIds st p ids) : i ∉ st.seenItems := by
  unfold levelNewIds at h
  rw [List.mem_filter] at h
  have := h.2
  simp at this
  exact this.1

theorem levelKept_ids_nodup (env : Corpus) (cfg : Config) (st : CrawlState)
    (p : List HNId) (ids : List Nat) (hWF : env.ItemsWF)
    (hbs : 0 < cfg.batchSize) (h : ids.Nodup) :
    ((levelKept env cfg st p ids).map Item.id).Nodup := by
  refine List.Nodup.sublist ?_
    (fetch_items_ids_nodup env hWF cfg.batchSize hbs _ (levelNewIds_nodup st p ids h))
  exact (List.filter_sublist _).map Item.id

theorem levelKept_fetched (env : Corpus) (cfg : Config) (st : CrawlState)
    (p : List HNId) (ids : List Nat) (hWF : env.ItemsWF)
    (hbs : 0 < cfg.batchSize) :
    ∀ c ∈ levelKept env cfg st p ids,
      env.getItem c.id = .val c ∧ c.itemType = "comment" ∧
        c.id ∈ levelNewIds st p ids := by
  intro c hc
  unfold levelKept keptComments at hc
  rw [List.mem_filter] at hc
  obtain ⟨hcb, hty⟩ := hc
  obtain ⟨j, hj, hv⟩ := mem_fetch_batch hbs hcb
  have hid := itemsWF_id_eq hWF hv
  subst hid
  exact ⟨hv, by simpa using hty, hj⟩

theorem categoryNewIds_nodup (p : List HNId) (ids : List Nat)
    (h : ids.Nodup) : (categoryNewIds p ids).Nodup :=
  h.filter _

theorem categoryNewIds_subset {p : List HNId} {ids : List Nat} {i : Nat}
    (h : i ∈ categoryNewIds p ids) : i ∈ ids :=
  (List.filter_sublist ids).subset h

theorem categoryKept_ids_nodup (env : Corpus) (cfg : Config) (p : List HNId)
    (ids : List Nat) (hWF : env.ItemsWF) (hbs : 0 < cfg.batchSize)
    (h : ids.Nodup) :
    ((categoryKept env cfg p ids).map Item.id).Nodup := by
  refine List.Nodup.sublist ?_
    (fetch_items_ids_nodup env hWF cfg.batchSize hbs _ (categoryNewIds_nodup p ids h))
  exact (List.filter_sublist _).map Item.id

theorem categoryKept_fetched (env : Corpus) (cfg : Config) (p : List HNId)
    (ids : List Nat) (hWF : env.ItemsWF) (hbs : 0 < cfg.batchSize) :
    ∀ c ∈ categoryKept env cfg p ids,
      env.getItem c.id = .val c ∧ c.itemType = "story" ∧
        c.id ∈ categoryNewIds p ids := by
  intro c hc
  unfold categoryKept keptStories at hc
  rw [List.mem_filter] at hc
  obtain ⟨hcb, hty⟩ := hc
  obtain ⟨j, hj, hv⟩ := mem_fetch_batch hbs hcb
  have hid := itemsWF_id_eq hWF hv
  subst hid
  exact ⟨hv, by simpa using hty, hj⟩

/-- One comment level preserves `C1Inv` and queues a duplicate-free child-id
list, in a tree-like corpus. -/
theorem C1_level_step (env : Corpus) (cfg : Config) (p : List HNId)
    (hWF : env.ItemsWF) (hWFu : env.UsersWF) (hKN : env.KidsNodup)
    (hKD : env.KidsDisjoint) (hbs : 0 < cfg.batchSize)
    (ids : List Nat) (st : CrawlState) (depth : Nat) (cat : String)
    (hids : ids.Nodup) (hInv : C1Inv env st) :
    C1Inv env (commentLevelState env cfg ids st p depth cat) ∧
    (levelChildIds env cfg st p ids depth).Nodup := by
  obtain ⟨hI1, hI2, hI3, hI4, hI5, hI6⟩ := hInv
  have hBnd := levelKept_ids_nodup env cfg st p ids hWF hbs hids
  have hBf := levelKept_fetched env cfg st p ids hWF hbs
  have hE : emittedItemIds (commentLevelState env cfg ids st p depth cat) =
      emittedItemIds st ++ (levelKept env cfg st p ids).map Item.id := by
    simp [emittedItemIds, commentLevelState, List.map_map, tagComment,
      List.append_assoc, Function.comp]
  have hEdisj : ∀ i ∈ emittedItemIds st,
      i ∉ (levelKept env cfg st p ids).map Item.id := by
    intro i hi hmem
    rw [List.mem_map] at hmem
    obtain ⟨c, hc, rfl⟩ := hmem
    exact levelNewIds_not_seen (hBf c hc).2.2 (hI3 _ hi)
  have husers : (commentLevelState env cfg ids st p depth cat).users =
      st.users ++ (if newNames st.seenUsers
          (authorsOf (levelKept env cfg st p ids)) = [] then []
        else (fetch_batch cfg.batchSize
            (newNames st.seenUsers (authorsOf (levelKept env cfg st p ids)))
            env.getUser).map
          (fun u => { profile := u, hnContext := "commenter_on_" ++ cat })) :=
    rfl
  have hnewuser : ∀ u ∈ fetch_batch cfg.batchSize
      (newNames st.seenUsers (authorsOf (levelKept env cfg st p ids)))
      env.getUser,
      u.id ∈ newNames st.seenUsers (authorsOf (levelKept env cfg st p ids)) := by
    intro u hu
    obtain ⟨n, hn, hv⟩ := mem_fetch_batch hbs hu
    rw [usersWF_id_eq hWFu hv]
    exact hn
  refine ⟨⟨?_, ?_, ?_, ?_, ?_, ?_⟩, ?_⟩
  · rw [hE]
    exact List.Nodup.append hI1 hBnd hEdisj
  · rw [husers, List.map_append]
    split
    · simpa using hI2
    · refine List.Nodup.append hI2 ?_ ?_
      · rw [List.map_map]
        have hco : ((fun tu : TaggedUser => tu.profile.id) ∘ (fun u => ({ profile := u, hnContext := "commenter_on_" ++ cat } : TaggedUser))) = UserProf.id := rfl
        rw [hco]
        exact fetch_users_ids_nodup env hWFu cfg.batchSize hbs _
          (newNames_nodup _ _)
      · intro x hx hmem
        rw [List.map_map, List.mem_map] at hmem
        obtain ⟨u, hu, rfl⟩ := hmem
        rw [List.mem_map] at hx
        obtain ⟨tu, htu, he⟩ := hx
        apply (newNames_mem _ _ _ (hnewuser u hu)).2
        have he2 : tu.profile.id = u.id := he
        rw [← he2]
        exact hI4 tu htu
  · intro i hi
    rw [hE] at hi
    have hseen : (commentLevelState env cfg ids st p depth cat).seenItems =
        ((levelKept env cfg st p ids).map Item.id).foldl addToSet st.seenItems :=
      rfl
    rw [hseen, mem_foldl_addToSet]
    rcases List.mem_append.mp hi with h | h
    · exact Or.inl (hI3 _ h)
    · exact Or.inr h
  · intro tu htu
    have hseen : (commentLevelState env cfg ids st p depth cat).seenUsers =
        (authorsOf (levelKept env cfg st p ids)).foldl addToSet st.seenUsers :=
      rfl
    rw [hseen, mem_foldl_addToSet]
    rw [husers] at htu
    rcases List.mem_append.mp htu with h | h
    · exact Or.inl (hI4 _ h)
    · split at h
      · cases h
      · rw [List.mem_map] at h
        obtain ⟨u, hu, rfl⟩ := h
        exact Or.inr (newNames_mem _ _ _ (hnewuser u hu)).1
  · intro ts hts
    exact hI5 ts hts
  · intro tc htc
    have hcom : (commentLevelState env cfg ids st p depth cat).comments =
        st.comments ++ (levelKept env cfg st p ids).map (tagComment cat depth) :=
      rfl
    rw [hcom] at htc
    rcases List.mem_append.mp htc with h | h
    · exact hI6 tc h
    · rw [List.mem_map] at h
      obtain ⟨c, hc, rfl⟩ := h
      exact ⟨(hBf c hc).1, (hBf c hc).2.1⟩
  · refine flatten_contributions_nodup env hKN hKD (childContribution cfg depth)
      ?_ _ hBnd (fun c hc => (hBf c hc).1)
    intro c
    unfold childContribution
    split
    · exact List.take_sublist _ _
    · exact List.nil_sublist _

/-- One category's story pass preserves `C1Inv` when its root list is
duplicate-free and disjoint from the already emitted stories; it queues a
duplicate-free comment-id list, and every new story id comes from the root
list. -/
theorem C1_cat_step (env : Corpus) (cfg : Config) (p : List HNId)
    (hWF : env.ItemsWF) (hWFu : env.UsersWF) (hKN : env.KidsNodup)
    (hKD : env.KidsDisjoint) (hbs : 0 < cfg.batchSize)
    (st : CrawlState) (cat : String) (ids : List Nat)
    (hids : ids.Nodup) (hdisj : ∀ ts ∈ st.stories, ts.item.id ∉ ids)
    (hInv : C1Inv env st) :
    C1Inv env (categoryLevelState env cfg p st cat ids) ∧
    (categoryCommentIds env cfg p ids).Nodup ∧
    (∀ ts ∈ (categoryLevelState env cfg p st cat ids).stories,
      ts ∈ st.stories ∨ ts.item.id ∈ ids) := by
  obtain ⟨hI1, hI2, hI3, hI4, hI5, hI6⟩ := hInv
  have hBnd := categoryKept_ids_nodup env cfg p ids hWF hbs hids
  have hBf := categoryKept_fetched env cfg p ids hWF hbs
  have hstories : (categoryLevelState env cfg p st cat ids).stories =
      st.stories ++ (categoryKept env cfg p ids).map (tagStory cat) := rfl
  have hE : emittedItemIds (categoryLevelState env cfg p st cat ids) =
      (st.stories.map (fun s => s.item.id) ++
        (categoryKept env cfg p ids).map Item.id) ++
        st.comments.map (fun c => c.item.id) := by
    simp [emittedItemIds, categoryLevelState, List.map_map, tagStory,
      Function.comp]
  have hperm : (emittedItemIds (categoryLevelState env cfg p st cat ids)).Perm
      (emittedItemIds st ++ (categoryKept env cfg p ids).map Item.id) := by
    rw [hE]
    unfold emittedItemIds
    rw [List.append_assoc, List.append_assoc]
    exact List.Perm.append_left _ (List.perm_append_comm)
  have hNsub : ∀ i ∈ (categoryKept env cfg p ids).map Item.id, i ∈ ids := by
    intro i hi
    rw [List.mem_map] at hi
    obtain ⟨c, hc, rfl⟩ := hi
    exact categoryNewIds_subset (hBf c hc).2.2
  have hEdisj : ∀ i ∈ emittedItemIds st,
      i ∉ (categoryKept env cfg p ids).map Item.id := by
    intro i hi hmem
    rw [List.mem_map] at hmem
    obtain ⟨c, hc, rfl⟩ := hmem
    rcases List.mem_append.mp hi with h | h
    · rw [List.mem_map] at h
      obtain ⟨ts, hts, hid⟩ := h
      exact hdisj ts hts (hid ▸ hNsub c.id (List.mem_map.mpr ⟨c, hc, rfl⟩))
    · rw [List.mem_map] at h
      obtain ⟨tc, htc, hid⟩ := h
      have h1 := (hI6 tc htc).1
      have hty1 := (hI6 tc htc).2
      have h2 := (hBf c hc).1
      have hty2 := (hBf c hc).2.1
      rw [hid] at h1
      rw [h1] at h2
      injection h2 with hitem
      rw [← hitem] at hty2
      rw [hty1] at hty2
      exact absurd hty2 (by decide)
  have husers : (categoryLevelState env cfg p st cat ids).users =
      st.users ++ (if newNames st.seenUsers
          (authorsOf (categoryKept env cfg p ids)) = [] then []
        else (fetch_batch cfg.batchSize
            (newNames st.seenUsers (authorsOf (categoryKept env cfg p ids)))
            env.getUser).map
          (fun u => { profile := u, hnContext := "author_of_" ++ cat ++ "_story" })) := rfl
  have hnewuser : ∀ u ∈ fetch_batch cfg.batchSize
      (newNames st.seenUsers (authorsOf (categoryKept env cfg p ids)))
      env.getUser,
      u.id ∈ newNames st.seenUsers
        (authorsOf (categoryKept env cfg p ids)) := by
    intro u hu
    obtain ⟨n, hn, hv⟩ := mem_fetch_batch hbs hu
    rw [usersWF_id_eq hWFu hv]
    exact hn
  refine ⟨⟨?_, ?_, ?_, ?_, ?_, ?_⟩, ?_, ?_⟩
  · rw [List.Perm.nodup_iff hperm]
    exact List.Nodup.append hI1 hBnd hEdisj
  · rw [husers, List.map_append]
    split
    · simpa using hI2
    · refine List.Nodup.append hI2 ?_ ?_
      · rw [List.map_map]
        have hco : ((fun tu : TaggedUser => tu.profile.id) ∘ (fun u => ({ profile := u, hnContext := "author_of_" ++ cat ++ "_story" } : TaggedUser))) = UserProf.id := rfl
        rw [hco]
        exact fetch_users_ids_nodup env hWFu cfg.batchSize hbs _
          (newNames_nodup _ _)
      · intro x hx hmem
        rw [List.map_map, List.mem_map] at hmem
        obtain ⟨u, hu, rfl⟩ := hmem
        rw [List.mem_map] at hx
        obtain ⟨tu, htu, he⟩ := hx
        apply (newNames_mem _ _ _ (hnewuser u hu)).2
        have he2 : tu.profile.id = u.id := he
        rw [← he2]
        exact hI4 tu htu
  · intro i hi
    have hseen : (categoryLevelState env cfg p st cat ids).seenItems =
        ((categoryKept env cfg p ids).map Item.id).foldl addToSet
          st.seenItems := rfl
    rw [hseen, mem_foldl_addToSet]
    have := (List.Perm.mem_iff hperm).mp hi
    rcases List.mem_append.mp this with h | h
    · exact Or.inl (hI3 _ h)
    · exact Or.inr h
  · intro tu htu
    have hseen : (categoryLevelState env cfg p st cat ids).seenUsers =
        (authorsOf (categoryKept env cfg p ids)).foldl addToSet
          st.seenUsers := rfl
    rw [hseen, mem_foldl_addToSet]
    rw [husers] at htu
    rcases List.mem_append.mp htu with h | h
    · exact Or.inl (hI4 _ h)
    · split at h
      · cases h
      · rw [List.mem_map] at h
        obtain ⟨u, hu, rfl⟩ := h
        exact Or.inr (newNames_mem _ _ _ (hnewuser u hu)).1
  · intro ts hts
    rw [hstories] at hts
    rcases List.mem_append.mp hts with h | h
    · exact hI5 ts h
    · rw [List.mem_map] at h
      obtain ⟨c, hc, rfl⟩ := h
      exact ⟨(hBf c hc).1, (hBf c hc).2.1⟩
  · intro tc htc
    exact hI6 tc htc
  · refine flatten_contributions_nodup env hKN hKD (topContribution cfg)
      ?_ _ hBnd (fun c hc => (hBf c hc).1)
    intro c
    unfold topContribution
    split
    · exact List.take_sublist _ _
    · exact List.nil_sublist _
  · intro ts hts
    rw [hstories] at hts
    rcases List.mem_append.mp hts with h | h
    · exact Or.inl h
    · rw [List.mem_map] at h
      obtain ⟨c, hc, rfl⟩ := h
      refine Or.inr ?_
      show c.id ∈ ids
      exact hNsub c.id (List.mem_map.mpr ⟨c, hc, rfl⟩)

/-- `C1Inv` is preserved by the whole comment recursion on duplicate-free
input ids. -/
theorem C1_fuel_walk (env : Corpus) (cfg : Config) (p : List HNId)
    (hWF : env.ItemsWF) (hWFu : env.UsersWF) (hKN : env.KidsNodup)
    (hKD : env.KidsDisjoint) (hbs : 0 < cfg.batchSize) :
    ∀ (fuel : Nat) (ids : List Nat) (st : CrawlState) (depth : Nat)
      (cat : String), ids.Nodup → C1Inv env st →
      C1Inv env (getCommentsWithFuel env cfg fuel ids st p depth cat) := by
  intro fuel
  induction fuel with
  | zero => exact fun ids st depth cat _ h => h
  | succ f ih =>
    intro ids st depth cat hids hInv
    by_cases hguard : depth ≥ cfg.maxCommentDepth ∨ ids = []
    · rw [getCommentsWithFuel, if_pos hguard]
      exact hInv
    · by_cases hnewn : levelNewIds st p ids = []
      · rw [getCommentsWithFuel_of_newIds_nil env cfg (f + 1) ids st p depth
          cat hnewn]
        exact hInv
      · rw [getCommentsWithFuel_level env cfg f ids st p depth cat hguard hnewn]
        obtain ⟨hInv2, hcnd⟩ :=
          C1_level_step env cfg p hWF hWFu hKN hKD hbs ids st depth cat hids hInv
        split
        · exact ih _ _ _ cat hcnd hInv2
        · exact hInv2

/-- `C1Inv` is preserved by the whole crawl when the root lists are
duplicate-free and pairwise disjoint. -/
theorem C1_foldl_walk (env : Corpus) (cfg : Config) (p : List HNId)
    (hWF : env.ItemsWF) (hWFu : env.UsersWF) (hKN : env.KidsNodup)
    (hKD : env.KidsDisjoint) (hbs : 0 < cfg.batchSize) :
    ∀ (cats : List (String × List Nat)) (st : CrawlState),
      (∀ q ∈ cats, q.2.Nodup) →
      cats.Pairwise (fun q q' => ∀ r ∈ q.2, r ∉ q'.2) →
      (∀ q ∈ cats, ∀ ts ∈ st.stories, ts.item.id ∉ q.2) →
      C1Inv env st →
      C1Inv env (cats.foldl (fun st q => processCategory env cfg p st q.1 q.2)
        st) := by
  intro cats
  induction cats with
  | nil => exact fun st _ _ _ h => h
  | cons q rest ih =>
    intro st hnd hpw hdisj hInv
    rw [List.foldl_cons]
    rw [List.pairwise_cons] at hpw
    obtain ⟨hq_rest, hpw_rest⟩ := hpw
    have hstep : C1Inv env (processCategory env cfg p st q.1 q.2) ∧
        (∀ ts ∈ (processCategory env cfg p st q.1 q.2).stories,
          ts ∈ st.stories ∨ ts.item.id ∈ q.2) := by
      by_cases hnew : categoryNewIds p q.2 = []
      · rw [processCategory_of_newIds_nil env cfg p st q.1 q.2 hnew]
        exact ⟨hInv, fun ts hts => Or.inl hts⟩
      · rw [processCategory_eq env cfg p st q.1 q.2 hnew]
        obtain ⟨hInv2, hccnd, horigin⟩ :=
          C1_cat_step env cfg p hWF hWFu hKN hKD hbs st q.1 q.2
            (hnd q (List.mem_cons_self q rest))
            (hdisj q (List.mem_cons_self q rest)) hInv
        split
        · constructor
          · rw [← get_comments_with_metadata_eq_fuel env cfg
              cfg.maxCommentDepth _ _ _ 0 _ (by omega)]
            exact C1_fuel_walk env cfg p hWF hWFu hKN hKD hbs _ _ _ 0 q.1
              hccnd hInv2
          · intro ts hts
            rw [get_comments_stories_eq] at hts
            exact horigin ts hts
        · exact ⟨hInv2, horigin⟩
    refine ih _ (fun q' hq' => hnd q' (List.mem_cons_of_mem q hq'))
      hpw_rest ?_ hstep.1
    intro q' hq' ts hts hid
    rcases hstep.2 ts hts with hold | hnewid
    · exact hdisj q' (List.mem_cons_of_mem q hq') ts hold hid
    · exact hq_rest q' hq' ts.item.id hnewid hid

/-- The combined id list (stories, comments, users) is duplicate-free once
the item-id part and the user-id part are: integer item ids and username ids
can never collide. -/
theorem emittedIds_nodup_of (st : CrawlState)
    (h1 : (emittedItemIds st).Nodup)
    (h2 : (st.users.map (fun tu => tu.profile.id)).Nodup) :
    st.emittedIds.Nodup := by
  unfold CrawlState.emittedIds
  refine List.Nodup.append ?_ ?_ ?_
  · have he : st.stories.map (fun s => HNId.item s.item.id) ++
        st.comments.map (fun c => HNId.item c.item.id) =
        (emittedItemIds st).map HNId.item := by
      simp only [emittedItemIds, List.map_append, List.map_map]
      rfl
    rw [he]
    exact h1.map (fun a b h => HNId.item.inj h)
  · have he : st.users.map (fun u => HNId.user u.profile.id) =
        (st.users.map (fun tu => tu.profile.id)).map HNId.user := by
      simp [List.map_map, Function.comp]
    rw [he]
    exact h2.map (fun a b h => HNId.user.inj h)
  · intro x hx hmem
    rcases List.mem_append.mp hx with h | h <;> rw [List.mem_map] at h <;>
      obtain ⟨a, _, rfl⟩ := h <;> rw [List.mem_map] at hmem <;>
      obtain ⟨b, _, hb⟩ := hmem <;> cases hb

/-- C1 (amended): in a tree-like corpus — items carry the id they are stored
under, child-id lists are duplicate-free and pairwise disjoint — and with
duplicate-free, pairwise-disjoint category root lists, every id appears at
most once across the stories, comments, and users lists of a crawl result.
The hypotheses are necessary: a repeated id within one level's combined
child-id list (or a root shared by two categories) is fetched twice within
one batch and emitted twice, because the seen-set filter runs before the
batch and ids are marked seen only after it. -/
theorem C1_no_duplicate_ids (env : Corpus) (cfg : Config)
    (storyIdsByCategory : List (String × List Nat)) (processedIds : List HNId)
    (hWF : env.ItemsWF) (hWFu : env.UsersWF) (hKN : env.KidsNodup)
    (hKD : env.KidsDisjoint) (hbs : 0 < cfg.batchSize)
    (hroots : ∀ q ∈ storyIdsByCategory, q.2.Nodup)
    (hdisj : storyIdsByCategory.Pairwise (fun q q' => ∀ r ∈ q.2, r ∉ q'.2)) :
    (get_hn_content_with_metadata env cfg storyIdsByCategory
      processedIds).emittedIds.Nodup := by
  have hInit : C1Inv env {} := by
    refine ⟨by simp [emittedItemIds], by simp, ?_, ?_, ?_, ?_⟩
    · intro i hi
      simp [emittedItemIds] at hi
    · intro tu htu
      cases htu
    · intro ts hts
      cases hts
    · intro tc htc
      cases htc
  have h := C1_foldl_walk env cfg processedIds hWF hWFu hKN hKD hbs
    storyIdsByCategory {} hroots hdisj (by intro q _ ts hts; cases hts) hInit
  exact emittedIds_nodup_of _ h.1 h.2.1

/-- The corpus for the C1 counterexample: story 1 lists comment 5 twice in
its child ids. -/
def envC1 : Corpus :=
  { itemEntries := [
      (1, .val { id := 1, itemType := "story", author := none, kids := [5, 5] }),
      (5, .val { id := 5, itemType := "comment", author := none, kids := [] })],
    userEntries := [],
    categoryStoryLists := [("topstories", [1])] }

/-- C1 counterexample: when a story lists the same child id twice, both
copies pass the seen-set filter (which runs before the batch), the id is
fetched twice in one batch, and the comment is emitted twice — the combined
id list of the result has a duplicate. -/
theorem C1_counterexample :
    ¬ (get_hn_content_with_metadata envC1 {}
      [("topstories", [1])] []).emittedIds.Nodup := by
  simp only [← get_hn_content_eq_fuel]
  decide

/-- Witness for the amended C1 on `envA`: the crawl of a tree-like corpus
has pairwise distinct ids across stories, comments, and users. -/
theorem C1_witness :
    (get_hn_content_with_metadata envA {}
      [("topstories", [1]), ("newstories", [2])] []).emittedIds.Nodup :=
  C1_no_duplicate_ids envA {} [("topstories", [1]), ("newstories", [2])] []
    (by decide) (by decide) (by decide) (by decide) (by decide) (by decide)
    (by decide)
